import Mathlib

/-!
Verification development for the SPDX copyright-header tool
(`scripts/copyright-check.py`).

The embedding works on `List Char` and models, faithfully to the Python
source:
  * the three comment dialects and their canonical-header patterns,
    legacy-header patterns and header templates (`FILE_TYPE_PATTERNS`);
  * `re.search` (leftmost match, with the backtracking order of the
    concrete patterns: lazy gap, greedy whitespace, greedy character
    classes, ordered alternation, lazy `.*?`);
  * `re.sub(repl, s, count=1)` including CPython's processing of escape
    sequences in the replacement string (`sre_parse.parse_template`):
    group references, octal escapes, control escapes, errors on bad
    escapes (modelled as `none`), unmatched groups expanding to the
    empty string;
  * `get_updated_years` (including the `ValueError` on a years string
    with two dashes, modelled as `none`), `normalize_license`,
    `get_file_type` with `os.path.splitext` semantics, and
    `update_or_insert_header` / the outcome computation of
    `process_file`.

Character classes (`\s`, `\d`, case folding, `str.strip`, `str.lower`)
are modelled on the ASCII range; Python additionally accepts some
non-ASCII code points there, which no statement below exercises.
-/

namespace CC

abbrev Str := List Char

/-- ASCII portion of the whitespace class used by Python's regex `\s`
and by `str.strip()`. -/
def isSp (c : Char) : Bool :=
  c = ' ' || c = '\t' || c = '\n' || c = '\r' || c = '\x0b' || c = '\x0c' ||
  c = '\x1c' || c = '\x1d' || c = '\x1e' || c = '\x1f'

/-- Character admitted by the regex class `[^.\n]`. -/
def notDotNl (c : Char) : Bool := c != '.' && c != '\n'

/-- Character admitted by the regex `.` (no DOTALL flag). -/
def notNl (c : Char) : Bool := c != '\n'

/-- Match a literal pattern at the front of the input, returning the
remainder. -/
def stripPref : Str → Str → Option Str
  | [], cs => some cs
  | _ :: _, [] => none
  | p :: ps, c :: cs => if p = c then stripPref ps cs else none

/-- Case-insensitive literal match (pattern given in lower case):
returns the matched input text and the remainder. -/
def ciPref : Str → Str → Option (Str × Str)
  | [], cs => some ([], cs)
  | _ :: _, [] => none
  | p :: ps, c :: cs =>
    if c.toLower = p then
      match ciPref ps cs with
      | some (t, r) => some (c :: t, r)
      | none => none
    else none

/-- Regex `\d{4}`: exactly four digits. -/
def digits4 : Str → Option (Str × Str)
  | a :: b :: c :: d :: r =>
    if a.isDigit && b.isDigit && c.isDigit && d.isDigit then
      some ([a, b, c, d], r)
    else none
  | _ => none

/-- Comment dialect: comment opener, per-line leader, closer.  The three
instances below reproduce the `FILE_TYPE_PATTERNS` entries byte for
byte. -/
structure Dialect where
  opn : Str
  lp : Str
  cls : Str
deriving DecidableEq, Repr

def sfcLit : Str := "SPDX-FileCopyrightText: ".data

def sliLit : Str := "SPDX-License-Identifier: ".data

/-- Java/Kotlin/C-style comments (key 'java'). -/
def javaD : Dialect := ⟨"/*".data, " * ".data, " */".data⟩

/-- Python/Shell/YAML style comments (key 'python'). -/
def hashD : Dialect := ⟨"#".data, "# ".data, "#".data⟩

/-- XML/HTML style comments (key 'xml'). -/
def xmlD : Dialect := ⟨"<!--".data, "  ".data, "-->".data⟩

/-- Rendering of `header_template.format(years=.., owner=.., license=..)`.
`str.format` substitutes the field values verbatim, so this is plain
concatenation; the same shape is the exact text matched by the
dialect's `spdx_pattern`. -/
def headerForm (d : Dialect) (yrs ow lic : Str) : Str :=
  d.opn ++ '\n' :: (d.lp ++ sfcLit ++ yrs ++ ' ' :: ow) ++
  '\n' :: (d.lp ++ sliLit ++ lic) ++ '\n' :: d.cls

/-- Captures of a canonical (SPDX) header match, plus the input
remainder after the matched span. -/
structure SpdxG where
  years : Str
  owner : Str
  license : Str
  rest : Str
deriving DecidableEq, Repr

def spdxFormOf (d : Dialect) (g : SpdxG) : Str :=
  headerForm d g.years g.owner g.license

/-- Regex `(?P<years>\d{4}(?:-\d{4})?)` followed by a literal space, with
the backtracking of the greedy optional group: the `-\d{4}` part is
kept only when a space follows it; otherwise the single-year reading
must itself be followed by a space. -/
def spdxYears (cs : Str) : Option (Str × Str) :=
  match digits4 cs with
  | none => none
  | some (y1, r1) =>
    match r1 with
    | '-' :: r2 =>
      match digits4 r2 with
      | none => none
      | some (y2, r3) =>
        match r3 with
        | ' ' :: r4 => some (y1 ++ '-' :: y2, r4)
        | _ => none
    | ' ' :: r2 => some (y1, r2)
    | _ => none

/-- Attempt of the dialect's `spdx_pattern` at the start of `cs`.
`(?P<owner>.+)\n` deterministically captures the whole rest of the
line (`.` cannot cross the newline, so no shorter capture can ever
satisfy the following `\n`), and likewise for the license group. -/
def spdxTryAt (d : Dialect) (cs : Str) : Option SpdxG :=
  match stripPref (d.opn ++ '\n' :: (d.lp ++ sfcLit)) cs with
  | none => none
  | some r0 =>
    match spdxYears r0 with
    | none => none
    | some (y, r1) =>
      match r1.dropWhile notNl with
      | '\n' :: r2 =>
        if (r1.takeWhile notNl).isEmpty then none
        else
          match stripPref (d.lp ++ sliLit) r2 with
          | none => none
          | some r3 =>
            match r3.dropWhile notNl with
            | '\n' :: r4 =>
              if (r3.takeWhile notNl).isEmpty then none
              else
                match stripPref d.cls r4 with
                | none => none
                | some r5 =>
                  some ⟨y, r1.takeWhile notNl, r3.takeWhile notNl, r5⟩
            | _ => none
      | _ => none

/-- Model of `spdx_pattern.search`: leftmost position at which the
pattern matches, with the captures of that match. -/
def spdxSearch (d : Dialect) : Str → Option (Nat × SpdxG)
  | [] =>
    match spdxTryAt d [] with
    | some g => some (0, g)
    | none => none
  | c :: t =>
    match spdxTryAt d (c :: t) with
    | some g => some (0, g)
    | none =>
      match spdxSearch d t with
      | some (i, g) => some (i + 1, g)
      | none => none

/-! ### Legacy (`non_spdx_pattern`) matcher

The pattern (identical for the three dialects up to the comment opener)
is, with `re.IGNORECASE`:

  opener  [\s\S]{0,5}?  (Copyright|\(c\))  \s+  (?P<years>\d{4}(?:-\d{4})?)
  \s+  (?P<owner>[^.\n]+)  [.\n]  .*?  Licensed under (the )?
  (?P<license>[^.\n]+)

Backtracking that can influence the result, mirrored below:
  * the lazy gap `[\s\S]{0,5}?` grows from 0 to 5 when the rest fails;
  * the greedy `\s+` before the owner shrinks from its maximal run
    down to one character;
  * the lazy `.*?` grows within the current line.
Choices that are forced (no alternative can ever succeed, so they are
implemented deterministically):
  * the `\s+` before the years group (a shorter run would place a
    whitespace character where `\d` is required);
  * the owner run `[^.\n]+` (a shorter run would place a `[^.\n]`
    character where `[.\n]` is required);
  * the two alternation branches start with distinct characters
    (`c`/`C` versus `(`), so at most one can match at a position;
  * the years group, as in `spdxYears` but followed by `\s`;
  * the license run `[^.\n]+` at the end of the pattern (greedy,
    nothing follows). -/

def licTake (cs : Str) : Str := cs.takeWhile notDotNl

def licDrop (cs : Str) : Str := cs.dropWhile notDotNl

def spTake (cs : Str) : Str := cs.takeWhile isSp

def spDrop (cs : Str) : Str := cs.dropWhile isSp

def copyrightLit : Str := "copyright".data

def parenCLit : Str := "(c)".data

def luLit : Str := "licensed under ".data

def theLit : Str := "the ".data

/-- Greedy `(the )?(?P<license>[^.\n]+)`: prefer consuming `the `, but
fall back to not consuming it when the license run after it would be
empty.  Returns (matched `the ` text, license capture, remainder). -/
def theLic (cs : Str) : Option (Str × Str × Str) :=
  match ciPref theLit cs with
  | some (t, r) =>
    if (licTake r).isEmpty then
      if (licTake cs).isEmpty then none else some ([], licTake cs, licDrop cs)
    else some (t, licTake r, licDrop r)
  | none =>
    if (licTake cs).isEmpty then none else some ([], licTake cs, licDrop cs)

/-- Literal `Licensed under ` followed by `theLic`.  Returns (matched
literal text, `the ` text, license, remainder). -/
def luTail (cs : Str) : Option (Str × Str × Str × Str) :=
  match ciPref luLit cs with
  | some (t, r) =>
    match theLic r with
    | some (th, lic, rest) => some (t, th, lic, rest)
    | none => none
  | none => none

/-- Lazy `.*?Licensed under (the )?(?P<license>[^.\n]+)`: the shortest
gap of non-newline characters after which the rest matches.  Returns
(gap, literal text, `the ` text, license, remainder). -/
def midLu : Str → Option (Str × Str × Str × Str × Str)
  | [] =>
    match luTail [] with
    | some (lu, th, lic, rest) => some ([], lu, th, lic, rest)
    | none => none
  | c :: t =>
    match luTail (c :: t) with
    | some (lu, th, lic, rest) => some ([], lu, th, lic, rest)
    | none =>
      if c = '\n' then none
      else
        match midLu t with
        | some (mid, lu, th, lic, rest) => some (c :: mid, lu, th, lic, rest)
        | none => none

/-- Captures of the part of a legacy match from the whitespace before
the owner onwards. -/
structure LegTail where
  ws2 : Str
  owner : Str
  term : Char
  mid : Str
  lu : Str
  thetxt : Str
  license : Str
  rest : Str
deriving DecidableEq, Repr

/-- One candidate split: `ws2` for the `\s+` before the owner, then the
(forced) maximal owner run, the `[.\n]` terminator and the line tail. -/
def ws2Try (ws2 : Str) (cs : Str) : Option LegTail :=
  if (licTake cs).isEmpty then none
  else
    match licDrop cs with
    | tc :: r =>
      match midLu r with
      | some (mid, lu, th, lic, rest) =>
        some ⟨ws2, licTake cs, tc, mid, lu, th, lic, rest⟩
      | none => none
    | [] => none

/-- Greedy `\s+` before the owner: lengths from maximal down to 1. -/
def ws2Loop (wsAll after : Str) : Nat → Option LegTail
  | 0 => none
  | k + 1 =>
    match ws2Try (wsAll.take (k + 1)) (wsAll.drop (k + 1) ++ after) with
    | some r => some r
    | none => ws2Loop wsAll after k

def afterYears (cs : Str) : Option LegTail :=
  ws2Loop (spTake cs) (spDrop cs) (spTake cs).length

/-- Match `\s+ years \s+ owner [.\n] .*? Licensed under (the )? license`
after the keyword.  Returns (ws1, years capture, tail). -/
def afterKw (cs : Str) : Option (Str × Str × LegTail) :=
  if (spTake cs).isEmpty then none
  else
    match digits4 (spDrop cs) with
    | none => none
    | some (y1, r2) =>
      match r2 with
      | '-' :: r3 =>
        match digits4 r3 with
        | none => none
        | some (y2, r4) =>
          match afterYears r4 with
          | some t => some (spTake cs, y1 ++ '-' :: y2, t)
          | none => none
      | _ =>
        match afterYears r2 with
        | some t => some (spTake cs, y1, t)
        | none => none

/-- Captures of a legacy-header match plus the remainder after the
matched span.  `kw`, `lu`, `thetxt` hold the input text matched by the
case-insensitive literals (groups 1 and 4 of the pattern); `thetxt` is
empty when the optional group did not participate. -/
structure LegG where
  gap : Str
  kw : Str
  ws1 : Str
  years : Str
  ws2 : Str
  owner : Str
  term : Char
  mid : Str
  lu : Str
  thetxt : Str
  license : Str
  rest : Str
deriving DecidableEq, Repr

def mkLegG (gap kw ws1 years : Str) (t : LegTail) : LegG :=
  ⟨gap, kw, ws1, years, t.ws2, t.owner, t.term, t.mid, t.lu, t.thetxt, t.license, t.rest⟩

/-- Text matched by the legacy pattern, reassembled from the captures. -/
def legFormOf (opn : Str) (m : LegG) : Str :=
  opn ++ m.gap ++ m.kw ++ m.ws1 ++ m.years ++ m.ws2 ++ m.owner ++
  m.term :: (m.mid ++ m.lu ++ m.thetxt ++ m.license)

/-- Ordered alternation `(Copyright|\(c\))` (case-insensitive).  The two
branches start with distinct characters, so at most one matches. -/
def kwAt (cs : Str) : Option (Str × Str) :=
  match ciPref copyrightLit cs with
  | some r => some r
  | none => ciPref parenCLit cs

/-- Keyword alternation followed by the rest of the pattern, at the
current offset (gap already consumed). -/
def kwTry (cs : Str) : Option LegG :=
  match kwAt cs with
  | some (kw, r) =>
    match afterKw r with
    | some (ws1, years, t) => some (mkLegG [] kw ws1 years t)
    | none => none
  | none => none

/-- Lazy gap `[\s\S]{0,5}?`: try the keyword at the current offset and,
when the whole rest fails, extend the gap by one character, up to
`fuel` more characters. -/
def gapLoop : Nat → Str → Option LegG
  | 0, cs => kwTry cs
  | f + 1, cs =>
    match kwTry cs with
    | some g => some g
    | none =>
      match cs with
      | c :: t =>
        match gapLoop f t with
        | some g => some { g with gap := c :: g.gap }
        | none => none
      | [] => none

/-- Attempt of the dialect's `non_spdx_pattern` at the start of `cs`. -/
def legacyTryAt (opn : Str) (cs : Str) : Option LegG :=
  match stripPref opn cs with
  | some r => gapLoop 5 r
  | none => none

/-- Model of `non_spdx_pattern.search`. -/
def legacySearch (opn : Str) : Str → Option (Nat × LegG)
  | [] =>
    match legacyTryAt opn [] with
    | some g => some (0, g)
    | none => none
  | c :: t =>
    match legacyTryAt opn (c :: t) with
    | some g => some (0, g)
    | none =>
      match legacySearch opn t with
      | some (i, g) => some (i + 1, g)
      | none => none

/-! ### Replacement-template expansion (`re.sub`)

CPython parses the replacement string once (`sre_parse.parse_template`)
and raises `re.error` on bad escapes; a reference to an existing group
that did not participate in the match expands to the empty string.
Errors are modelled as `none`. -/

/-- Group environment of a match: `groups.get? n = none` means group `n`
does not exist in the pattern (a reference is an error);
`some none` means the group exists but did not participate (expands to
the empty string); `names` is the named-group index. -/
structure GroupEnv where
  groups : List (Option Str)
  names : List (Str × Nat)

def grpRef (e : GroupEnv) (n : Nat) : Option Str :=
  match e.groups.get? n with
  | none => none
  | some none => some []
  | some (some s) => some s

def isOct (c : Char) : Bool := '0' ≤ c && c ≤ '7'

def decDigits (cs : Str) : Nat := cs.foldl (fun a c => a * 10 + (c.toNat - 48)) 0

def octDigits (cs : Str) : Nat := cs.foldl (fun a c => a * 8 + (c.toNat - 48)) 0

/-- Resolve the name inside a `\g<...>` reference: a run of digits is a
group number (leading zeros allowed), otherwise the named-group table
is consulted. -/
def gName (e : GroupEnv) (nm : Str) : Option Str :=
  if nm.isEmpty then none
  else if nm.all (fun x => x.isDigit) then grpRef e (decDigits nm)
  else
    match e.names.lookup nm with
    | some n => grpRef e n
    | none => none

/-- Parse a `\g<name>` group reference: input starts after the `g`. -/
def gRef (e : GroupEnv) (cs : Str) : Option (Str × Str) :=
  match cs with
  | '<' :: t1 =>
    match t1.dropWhile (fun x => x != '>') with
    | '>' :: t2 =>
      match gName e (t1.takeWhile (fun x => x != '>')) with
      | some s => some (s, t2)
      | none => none
    | _ => none
  | _ => none

/-- Octal escape `\0` with up to two further octal digits; cannot
fail. -/
def escZero (t : Str) : Str × Str :=
  match t with
  | d1 :: t1 =>
    if isOct d1 then
      match t1 with
      | d2 :: t2 =>
        if isOct d2 then ([Char.ofNat (octDigits ['0', d1, d2])], t2)
        else ([Char.ofNat (octDigits ['0', d1])], t1)
      | [] => ([Char.ofNat (octDigits ['0', d1])], t1)
    else (['\x00'], t)
  | [] => (['\x00'], t)

/-- Escape starting with a digit `1`-`9` (the digit `c`, remaining input
`t`): three octal digits form an octal escape (error above `\377`),
otherwise up to two digits form a group number. -/
def escDigN (e : GroupEnv) (c : Char) (t : Str) : Option (Str × Str) :=
  match t with
  | d2 :: t2 =>
    if d2.isDigit then
      match t2 with
      | d3 :: t3 =>
        if isOct c && isOct d2 && isOct d3 then
          if octDigits [c, d2, d3] ≤ 255 then
            some ([Char.ofNat (octDigits [c, d2, d3])], t3)
          else none
        else
          match grpRef e (decDigits [c, d2]) with
          | some s => some (s, t2)
          | none => none
      | [] =>
        match grpRef e (decDigits [c, d2]) with
        | some s => some (s, t2)
        | none => none
    else
      match grpRef e (decDigits [c]) with
      | some s => some (s, t)
      | none => none
  | [] =>
    match grpRef e (decDigits [c]) with
    | some s => some (s, t)
    | none => none

/-- Single-character escapes recognised in replacement templates
(`sre_parse.ESCAPES` restricted to the template parser): `\\`, `\n`,
`\t`, `\r`, `\a`, `\b`, `\f`, `\v`. -/
def escCtl (c : Char) : Option Char :=
  if c = '\\' then some '\\'
  else if c = 'n' then some '\n'
  else if c = 't' then some '\t'
  else if c = 'r' then some '\r'
  else if c = 'a' then some '\x07'
  else if c = 'b' then some '\x08'
  else if c = 'f' then some '\x0c'
  else if c = 'v' then some '\x0b'
  else none

/-- Process one escape sequence: the input starts after a backslash.
Returns the expansion and remaining input, or `none` for `re.error`. -/
def escStep (e : GroupEnv) (cs : Str) : Option (Str × Str) :=
  match cs with
  | [] => none
  | c :: t =>
    match escCtl c with
    | some ch => some ([ch], t)
    | none =>
      if c = 'g' then gRef e t
      else if c = '0' then some (escZero t)
      else if c.isDigit then escDigN e c t
      else if c.isAlpha then none
      else some (['\\', c], t)

theorem gRef_len {e : GroupEnv} {cs s r : Str} (h : gRef e cs = some (s, r)) :
    r.length < cs.length := by
  unfold gRef at h
  split at h
  case _ t1 =>
    split at h
    case _ t2 heq =>
      have hsub : (t1.dropWhile (fun x => x != '>')).Sublist t1 :=
        List.dropWhile_sublist _
      rw [heq] at hsub
      have hle := hsub.length_le
      split at h
      · cases h; simp_all; omega
      · cases h
    all_goals cases h
  all_goals cases h

theorem escZero_len {t out rem : Str} (h : escZero t = (out, rem)) :
    rem.length ≤ t.length := by
  unfold escZero at h
  repeat' split at h
  all_goals cases h
  all_goals simp
  all_goals omega

theorem escDigN_len {e : GroupEnv} {c : Char} {t out rem : Str}
    (h : escDigN e c t = some (out, rem)) : rem.length ≤ t.length := by
  unfold escDigN at h
  repeat' split at h
  all_goals cases h
  all_goals simp_all
  all_goals omega

theorem escStep_len {e : GroupEnv} {cs out rem : Str}
    (h : escStep e cs = some (out, rem)) : rem.length < cs.length + 1 := by
  unfold escStep at h
  split at h
  · cases h
  case _ c t =>
    repeat' split at h
    all_goals try (cases h <;> (simp; omega))
    · have := gRef_len h; simp; omega
    · have h2 : escZero t = (out, rem) := by
        cases h3 : escZero t
        cases h3 ▸ h; rfl
      have := escZero_len h2; simp; omega
    · have := escDigN_len h; simp; omega

/-- Fuel-indexed worker for `expandRepl`; the fuel only serves
structural termination and is irrelevant as soon as it bounds the
input length (`expandGo_congr`). -/
def expandGo (e : GroupEnv) : Nat → Str → Option Str
  | _, [] => some []
  | 0, _ :: _ => none
  | f + 1, c :: t =>
    if c = '\\' then
      match escStep e t with
      | none => none
      | some (out, rem) =>
        match expandGo e f rem with
        | some r => some (out ++ r)
        | none => none
    else
      match expandGo e f t with
      | some r => some (c :: r)
      | none => none

/-- Model of the expansion of a replacement template (`m.expand`); `none`
models an `re.error`/`IndexError` raised by `re.sub`. -/
def expandRepl (e : GroupEnv) (cs : Str) : Option Str :=
  expandGo e cs.length cs

theorem expandGo_congr (e : GroupEnv) :
    ∀ f g cs, cs.length ≤ f → cs.length ≤ g →
      expandGo e f cs = expandGo e g cs := by
  intro f
  induction f with
  | zero =>
    intro g cs hf _
    match cs with
    | [] => cases g <;> rfl
    | _ :: _ => simp at hf
  | succ f ih =>
    intro g cs hf hg
    match cs with
    | [] => cases g <;> rfl
    | c :: t =>
      match g with
      | 0 => simp at hg
      | g + 1 =>
        have hf1 : t.length ≤ f := by simpa using hf
        have hg1 : t.length ≤ g := by simpa using hg
        simp only [expandGo]
        by_cases hc : c = '\\'
        · simp only [if_pos hc]
          match hstep : escStep e t with
          | none => rfl
          | some (out, rem) =>
            have hlen : rem.length ≤ t.length :=
              Nat.lt_succ_iff.mp (escStep_len hstep)
            simp only [ih g rem (Nat.le_trans hlen hf1) (Nat.le_trans hlen hg1)]
        · simp only [if_neg hc]
          rw [ih g t hf1 hg1]

/-! ### Group environments and `pattern.sub(repl, s, count=1)` -/

/-- Groups of `spdx_pattern`: 0 = whole match, 1 = years, 2 = owner,
3 = license. -/
def spdxEnv (d : Dialect) (g : SpdxG) : GroupEnv :=
  ⟨[some (spdxFormOf d g), some g.years, some g.owner, some g.license],
   [("years".data, 1), ("owner".data, 2), ("license".data, 3)]⟩

/-- Groups of `non_spdx_pattern`: 0 = whole match, 1 = the
`(Copyright|\(c\))` alternation, 2 = years, 3 = owner (raw), 4 = the
optional `(the )` group (absent when it did not participate),
5 = license. -/
def legEnv (opn : Str) (m : LegG) : GroupEnv :=
  ⟨[some (legFormOf opn m), some m.kw, some m.years, some m.owner,
    (if m.thetxt.isEmpty then none else some m.thetxt), some m.license],
   [("years".data, 2), ("owner".data, 3), ("license".data, 5)]⟩

/-- Model of `spdx_pattern.sub(repl, cs, count=1)`. -/
def spdxSub (d : Dialect) (repl cs : Str) : Option Str :=
  match spdxSearch d cs with
  | none => some cs
  | some (i, g) =>
    match expandRepl (spdxEnv d g) repl with
    | none => none
    | some e => some (cs.take i ++ e ++ g.rest)

/-- Model of `non_spdx_pattern.sub(repl, cs, count=1)`. -/
def legacySub (opn : Str) (repl cs : Str) : Option Str :=
  match legacySearch opn cs with
  | none => some cs
  | some (i, m) =>
    match expandRepl (legEnv opn m) repl with
    | none => none
    | some e => some (cs.take i ++ e ++ m.rest)

/-! ### `normalize_license`, `get_file_type`, `get_updated_years` -/

/-- Python `str.strip()` (ASCII whitespace). -/
def trimWs (cs : Str) : Str :=
  ((cs.dropWhile isSp).reverse.dropWhile isSp).reverse

/-- Table `LICENSE_NAME_MAP` of the source, in order. -/
def LICENSE_NAME_MAP : List (Str × Str) :=
  [("Apache License, Version 2.0".data, "Apache-2.0".data),
   ("Apache 2.0".data, "Apache-2.0".data),
   ("MIT".data, "MIT".data),
   ("GPL v3".data, "GPL-3.0-only".data),
   ("GPLv3".data, "GPL-3.0-only".data)]

/-- Model of `normalize_license`: `LICENSE_NAME_MAP.get(name.strip(), fallback)`. -/
def normalize_license (name fallback : Str) : Str :=
  (LICENSE_NAME_MAP.lookup (trimWs name)).getD fallback

/-- Suffix of a path after its last `/` (POSIX `os.path.basename`). -/
def afterLastSlash : Str → Str
  | [] => []
  | c :: t =>
    if t.contains '/' then afterLastSlash t
    else if c = '/' then t else c :: t

/-- Suffix from the last `.` (inclusive), empty when there is none. -/
def fromLastDot : Str → Str
  | [] => []
  | c :: t =>
    if t.contains '.' then fromLastDot t
    else if c = '.' then c :: t else []

/-- Extension as computed by `os.path.splitext(path)[1]`: last-dot
suffix of the basename, where leading dots of the basename do not
start an extension. -/
def extOf (p : Str) : Str :=
  fromLastDot ((afterLastSlash p).dropWhile (fun c => c = '.'))

def lowerStr (cs : Str) : Str := cs.map Char.toLower

/-- Table `EXTENSION_MAP` of the source, in order. -/
def EXTENSION_MAP : List (String × String) :=
  [(".java", "java"), (".kt", "java"), (".kts", "java"), (".js", "java"),
   (".ts", "java"), (".c", "java"), (".cpp", "java"), (".h", "java"),
   (".hpp", "java"), (".css", "java"),
   (".py", "python"), (".sh", "python"), (".yaml", "python"),
   (".yml", "python"), (".toml", "python"), (".conf", "python"),
   (".properties", "python"),
   (".xml", "xml"), (".html", "xml"), (".xhtml", "xml"), (".svg", "xml")]

/-- Model of `get_file_type`: lower-cased extension looked up in
`EXTENSION_MAP`, defaulting to Java-style comments. -/
def get_file_type (path : String) : String :=
  (EXTENSION_MAP.lookup (String.mk (lowerStr (extOf path.data)))).getD "java"

/-- The `FILE_TYPE_PATTERNS` entry for a file-type key. -/
def dialects (ft : String) : Dialect :=
  if ft = "python" then hashD else if ft = "xml" then xmlD else javaD

/-- Decimal rendering `str(y)` of the current year. -/
def yearStr (y : Nat) : Str := (toString y).data

/-- Python `s.split("-")` (all occurrences, keeping empty parts). -/
def splitDash : Str → List Str
  | [] => [[]]
  | c :: t =>
    if c = '-' then [] :: splitDash t
    else
      match splitDash t with
      | h :: r => (c :: h) :: r
      | [] => [[c]]

/-- Model of `get_updated_years`; `none` models the `ValueError` raised
by the two-target unpacking when the years string holds more than one
dash (impossible for a capture of either pattern). -/
def get_updated_years (y : Nat) (existing : Str) : Option Str :=
  if existing.contains '-' then
    match splitDash existing with
    | [a, _] => some (a ++ '-' :: yearStr y)
    | _ => none
  else if existing = yearStr y then some existing
  else some (existing ++ '-' :: yearStr y)

/-! ### The resolver: `update_or_insert_header` and the outcome of
`process_file` -/

/-- Model of `update_or_insert_header`.  `none` models an exception
(`re.error` from `re.sub`, or the `ValueError` of
`get_updated_years`). -/
def update_or_insert_header (y : Nat) (content : Str) (path : String)
    (fallback_license fallback_owner : Str) : Option (Str × String) :=
  match spdxSearch (dialects (get_file_type path)) content with
  | some (_, g) =>
    match get_updated_years y g.years with
    | none => none
    | some yrs =>
      match
        spdxSub (dialects (get_file_type path))
          (headerForm (dialects (get_file_type path)) yrs g.owner g.license)
          content with
      | none => none
      | some out => some (out, "spdx_updated")
  | none =>
    match legacySearch (dialects (get_file_type path)).opn content with
    | some (_, m) =>
      match get_updated_years y m.years with
      | none => none
      | some yrs =>
        match
          legacySub (dialects (get_file_type path)).opn
            (headerForm (dialects (get_file_type path)) yrs (trimWs m.owner)
              (normalize_license m.license fallback_license)) content with
        | none => none
        | some out => some (out, "non_spdx_converted")
    | none =>
      some (headerForm (dialects (get_file_type path)) (yearStr y)
              fallback_owner fallback_license ++
            '\n' :: '\n' :: content, "header_inserted")

/-- Outcome reported by `process_file` for one file (its pure part):
the change type from the resolver, demoted to `unchanged` when the
new text is byte-identical to the original. -/
def processOutcome (y : Nat) (content : Str) (path : String)
    (fl fo : Str) : Option String :=
  match update_or_insert_header y content path fl fo with
  | none => none
  | some (updated, ct) => some (if content = updated then "unchanged" else ct)

/-! ### Structure lemmas: literals, digits, runs -/

theorem stripPref_eq : ∀ {p cs r : Str}, stripPref p cs = some r → cs = p ++ r := by
  intro p
  induction p with
  | nil => intro cs r h; cases h; rfl
  | cons p ps ih =>
    intro cs r h
    match cs with
    | [] => cases h
    | c :: cs =>
      unfold stripPref at h
      split at h
      · next heq => cases heq; rw [ih h]; rfl
      · cases h

theorem stripPref_self : ∀ (p r : Str), stripPref p (p ++ r) = some r := by
  intro p
  induction p with
  | nil => intro r; rfl
  | cons p ps ih => intro r; simp [stripPref, ih r]

theorem ciPref_eq : ∀ {p cs t r : Str}, ciPref p cs = some (t, r) →
    cs = t ++ r ∧ t.length = p.length := by
  intro p
  induction p with
  | nil => intro cs t r h; cases h; exact ⟨rfl, rfl⟩
  | cons p ps ih =>
    intro cs t r h
    match cs with
    | [] => cases h
    | c :: cs =>
      unfold ciPref at h
      split at h
      · split at h
        · next t2 r2 heq =>
          cases h
          obtain ⟨h1, h2⟩ := ih heq
          constructor
          · rw [h1]; rfl
          · simp [h2]
        · cases h
      · cases h

theorem ciPref_head {p0 : Char} {ps cs t r : Str}
    (h : ciPref (p0 :: ps) cs = some (t, r)) :
    ∃ c t2, t = c :: t2 ∧ c.toLower = p0 := by
  match cs with
  | [] => cases h
  | c :: cs =>
    unfold ciPref at h
    split at h
    · next hlow =>
      split at h
      · cases h; exact ⟨c, _, rfl, hlow⟩
      · cases h
    · cases h

theorem digits4_eq {cs y r : Str} (h : digits4 cs = some (y, r)) :
    cs = y ++ r ∧ y.length = 4 ∧ ∀ c ∈ y, c.isDigit := by
  unfold digits4 at h
  split at h
  · split at h
    · next hd =>
      cases h
      refine ⟨rfl, rfl, ?_⟩
      simp only [Bool.and_eq_true] at hd
      intro c hc
      simp only [List.mem_cons, List.not_mem_nil, or_false] at hc
      rcases hc with rfl | rfl | rfl | rfl
      · exact hd.1.1.1
      · exact hd.1.1.2
      · exact hd.1.2
      · exact hd.2
    · cases h
  · cases h

theorem digits4_self : ∀ {a : Str}, a.length = 4 → (∀ c ∈ a, c.isDigit) →
    ∀ r, digits4 (a ++ r) = some (a, r) := by
  intro a h4 hd r
  match a with
  | [a1, a2, a3, a4] =>
    simp [digits4, hd a1 (by simp), hd a2 (by simp), hd a3 (by simp),
      hd a4 (by simp)]
  | [] => simp at h4
  | [_] => simp at h4
  | [_, _] => simp at h4
  | [_, _, _] => simp at h4
  | _ :: _ :: _ :: _ :: _ :: _ => simp at h4

theorem takeWhile_app {p : Char → Bool} :
    ∀ {a : Str} (b0 : Char) (r : Str), (∀ c ∈ a, p c = true) → p b0 = false →
      (a ++ b0 :: r).takeWhile p = a ∧ (a ++ b0 :: r).dropWhile p = b0 :: r := by
  intro a
  induction a with
  | nil =>
    intro b0 r _ hb
    simp [List.takeWhile, List.dropWhile, hb]
  | cons c t ih =>
    intro b0 r ha hb
    have hc : p c = true := ha c (by simp)
    have := ih b0 r (fun x hx => ha x (by simp [hx])) hb
    simp [List.takeWhile, List.dropWhile, hc, this.1, this.2]

theorem mem_takeWhile {p : Char → Bool} :
    ∀ {cs : Str} {c : Char}, c ∈ cs.takeWhile p → p c = true := by
  intro cs
  induction cs with
  | nil => intro c h; simp [List.takeWhile] at h
  | cons a t ih =>
    intro c h
    rw [List.takeWhile] at h
    by_cases ha : p a
    · rw [ha] at h
      simp only [List.mem_cons] at h
      rcases h with rfl | h
      · exact ha
      · exact ih h
    · simp [Bool.not_eq_true] at ha
      rw [ha] at h
      simp at h

/-! ### Years: shape of a capture and `get_updated_years` -/

theorem digitChar_isDigit {n : Nat} (h : n < 10) : (Nat.digitChar n).isDigit := by
  interval_cases n <;> decide

theorem toDigitsCore_digits :
    ∀ (f n : Nat) (ds : Str), (∀ c ∈ ds, c.isDigit) →
      ∀ c ∈ Nat.toDigitsCore 10 f n ds, c.isDigit := by
  intro f
  induction f with
  | zero =>
    intro n ds h c hc
    exact h c hc
  | succ f ih =>
    intro n ds h c hc
    rw [Nat.toDigitsCore] at hc
    have hd : (Nat.digitChar (n % 10)).isDigit :=
      digitChar_isDigit (Nat.mod_lt _ (by norm_num))
    have hds : ∀ x ∈ Nat.digitChar (n % 10) :: ds, x.isDigit := by
      intro x hx
      rcases List.mem_cons.mp hx with rfl | hx
      · exact hd
      · exact h x hx
    split at hc
    · exact hds c hc
    · exact ih _ _ hds c hc

/-- Every character of `str(y)` for a natural `y` is a digit. -/
theorem natStr_digits : ∀ {y : Nat} {c : Char}, c ∈ yearStr y → c.isDigit := by
  intro y c hc
  have : yearStr y = Nat.toDigits 10 y := rfl
  rw [this, Nat.toDigits] at hc
  exact toDigitsCore_digits _ _ _ (by intro x hx; cases hx) c hc

/-- Shape of the text matched by `\d{4}(?:-\d{4})?`. -/
def yearsShape (ys : Str) : Prop :=
  (ys.length = 4 ∧ ∀ c ∈ ys, c.isDigit) ∨
  (∃ a b, ys = a ++ '-' :: b ∧ a.length = 4 ∧ b.length = 4 ∧
    (∀ c ∈ a, c.isDigit) ∧ (∀ c ∈ b, c.isDigit))

theorem spdxYears_eq {cs y r : Str} (h : spdxYears cs = some (y, r)) :
    cs = y ++ ' ' :: r ∧ yearsShape y := by
  unfold spdxYears at h
  split at h
  · cases h
  case _ y1 r1 heq1 =>
    obtain ⟨rfl, hl1, hd1⟩ := digits4_eq heq1
    split at h
    case _ r2 =>
      split at h
      · cases h
      case _ y2 r3 heq2 =>
        obtain ⟨rfl, hl2, hd2⟩ := digits4_eq heq2
        split at h
        · cases h
          refine ⟨by simp, Or.inr ⟨y1, y2, rfl, hl1, hl2, hd1, hd2⟩⟩
        · cases h
    case _ r2 =>
      cases h
      exact ⟨rfl, Or.inl ⟨hl1, hd1⟩⟩
    · cases h

/-- Digits are never a dash. -/
theorem digit_ne_dash {c : Char} (h : c.isDigit) : c ≠ '-' := by
  intro hc
  subst hc
  simp [Char.isDigit] at h

/-- Digits are never a backslash. -/
theorem digit_ne_bs {c : Char} (h : c.isDigit) : c ≠ '\\' := by
  intro hc
  subst hc
  simp [Char.isDigit] at h

theorem splitDash_no_dash : ∀ {a : Str}, (∀ c ∈ a, c ≠ '-') → splitDash a = [a] := by
  intro a
  induction a with
  | nil => intro _; rfl
  | cons c t ih =>
    intro h
    have hc : ¬(c = '-') := h c (by simp)
    simp only [splitDash, if_neg hc, ih (fun x hx => h x (by simp [hx]))]

theorem splitDash_pair {a b : Str} (ha : ∀ c ∈ a, c ≠ '-') (hb : ∀ c ∈ b, c ≠ '-') :
    splitDash (a ++ '-' :: b) = [a, b] := by
  induction a with
  | nil => simp [splitDash, splitDash_no_dash hb]
  | cons c t ih =>
    have hc : ¬(c = '-') := ha c (by simp)
    have ht := ih (fun x hx => ha x (by simp [hx]))
    simp only [List.cons_append, splitDash, if_neg hc]
    rw [show t.append ('-' :: b) = t ++ '-' :: b from rfl, ht]

theorem contains_iff_mem {cs : Str} {c : Char} : cs.contains c = true ↔ c ∈ cs := by
  simp [List.contains]

/-- Behaviour of `get_updated_years` on a single-year capture. -/
theorem guy_single {y : Nat} {ys : Str} (h4 : ys.length = 4)
    (hd : ∀ c ∈ ys, c.isDigit) :
    get_updated_years y ys =
      some (if ys = yearStr y then ys else ys ++ '-' :: yearStr y) := by
  have hnd : ∀ c ∈ ys, c ≠ '-' := fun c hc => digit_ne_dash (hd c hc)
  have hcon : ys.contains '-' = false := by
    by_contra hx
    simp only [Bool.not_eq_false] at hx
    exact hnd _ (contains_iff_mem.mp hx) rfl
  unfold get_updated_years
  rw [hcon]
  simp only [Bool.false_eq_true, if_false]
  split <;> simp_all

/-- Behaviour of `get_updated_years` on a range capture. -/
theorem guy_range {y : Nat} {a b : Str}
    (hda : ∀ c ∈ a, c.isDigit) (hdb : ∀ c ∈ b, c.isDigit) :
    get_updated_years y (a ++ '-' :: b) = some (a ++ '-' :: yearStr y) := by
  have hna : ∀ c ∈ a, c ≠ '-' := fun c hc => digit_ne_dash (hda c hc)
  have hnb : ∀ c ∈ b, c ≠ '-' := fun c hc => digit_ne_dash (hdb c hc)
  have hcon : (a ++ '-' :: b).contains '-' = true := by
    rw [contains_iff_mem]; simp
  unfold get_updated_years
  rw [hcon, splitDash_pair hna hnb]
  simp

/-- A capture of years shape always passes `get_updated_years`. -/
theorem guy_shape (y : Nat) {ys : Str} (h : yearsShape ys) :
    ∃ z, get_updated_years y ys = some z ∧ (∀ c ∈ z, c.isDigit ∨ c = '-') := by
  have hy : ∀ c ∈ yearStr y, c.isDigit := by
    intro c hc
    exact natStr_digits hc
  rcases h with ⟨h4, hd⟩ | ⟨a, b, rfl, h4a, h4b, hda, hdb⟩
  · rw [guy_single h4 hd]
    split
    · exact ⟨ys, rfl, fun c hc => Or.inl (hd c hc)⟩
    · refine ⟨ys ++ '-' :: yearStr y, rfl, ?_⟩
      intro c hc
      simp only [List.mem_append, List.mem_cons] at hc
      rcases hc with hc | rfl | hc
      · exact Or.inl (hd c hc)
      · exact Or.inr rfl
      · exact Or.inl (hy c hc)
  · rw [guy_range hda hdb]
    refine ⟨a ++ '-' :: yearStr y, rfl, ?_⟩
    intro c hc
    simp only [List.mem_append, List.mem_cons] at hc
    rcases hc with hc | rfl | hc
    · exact Or.inl (hda c hc)
    · exact Or.inr rfl
    · exact Or.inl (hy c hc)

/-! ### Structure of canonical-header matches -/

theorem notNl_iff {c : Char} : notNl c = true ↔ c ≠ '\n' := by
  simp [notNl]

/-- A successful attempt of `spdx_pattern` at the start of `cs`
decomposes `cs` into the re-assembled matched span and the remainder,
and constrains the captures. -/
theorem spdxTryAt_eq {d : Dialect} {cs : Str} {g : SpdxG}
    (h : spdxTryAt d cs = some g) :
    cs = spdxFormOf d g ++ g.rest ∧ yearsShape g.years ∧
      g.owner ≠ [] ∧ g.license ≠ [] ∧
      (∀ c ∈ g.owner, c ≠ '\n') ∧ (∀ c ∈ g.license, c ≠ '\n') := by
  unfold spdxTryAt at h
  split at h
  · cases h
  case _ r0 heq0 =>
    split at h
    · cases h
    case _ y r1 heq1 =>
      split at h
      case _ r2 heq2 =>
        split at h
        · cases h
        case _ how =>
          split at h
          · cases h
          case _ r3 heq3 =>
            split at h
            case _ r4 heq4 =>
              split at h
              · cases h
              case _ hlic =>
                split at h
                · cases h
                case _ r5 heq5 =>
                  cases h
                  obtain ⟨hy1, hy2⟩ := spdxYears_eq heq1
                  have hr1 : r1 = r1.takeWhile notNl ++ '\n' :: r2 := by
                    conv_lhs => rw [← List.takeWhile_append_dropWhile notNl r1]
                    rw [heq2]
                  have hr3 : r3 = r3.takeWhile notNl ++ '\n' :: r4 := by
                    conv_lhs => rw [← List.takeWhile_append_dropWhile notNl r3]
                    rw [heq4]
                  have hmem1 : ∀ c ∈ r1.takeWhile notNl, c ≠ '\n' :=
                    fun c hc => notNl_iff.mp (mem_takeWhile hc)
                  have hmem3 : ∀ c ∈ r3.takeWhile notNl, c ≠ '\n' :=
                    fun c hc => notNl_iff.mp (mem_takeWhile hc)
                  generalize hga : r1.takeWhile notNl = ow at hr1 hmem1 how ⊢
                  generalize hgb : r3.takeWhile notNl = lic at hr3 hmem3 hlic ⊢
                  refine ⟨?_, hy2, by simpa using how, by simpa using hlic,
                    hmem1, hmem3⟩
                  rw [stripPref_eq heq0, hy1, hr1, stripPref_eq heq3, hr3,
                    stripPref_eq heq5]
                  simp [spdxFormOf, headerForm]
            · cases h
      · cases h

theorem spdxYears_render {ys : Str} (hy : yearsShape ys) (X : Str) :
    spdxYears (ys ++ ' ' :: X) = some (ys, X) := by
  rcases hy with ⟨h4, hd⟩ | ⟨a, b, rfl, h4a, h4b, hda, hdb⟩
  · unfold spdxYears
    simp only [digits4_self h4 hd (' ' :: X)]
  · unfold spdxYears
    have heq : (a ++ '-' :: b) ++ ' ' :: X = a ++ '-' :: (b ++ ' ' :: X) := by simp
    rw [heq]
    simp only [digits4_self h4a hda ('-' :: (b ++ ' ' :: X))]
    simp only [digits4_self h4b hdb (' ' :: X)]

theorem isEmpty_false_of_ne {l : Str} (h : l ≠ []) : l.isEmpty = false := by
  cases l with
  | nil => exact absurd rfl h
  | cons a t => rfl

/-- Rendering the template and re-matching it: the attempt at offset 0
succeeds and recaptures the rendered values. -/
theorem spdxTryAt_render (d : Dialect) {ys ow lic : Str} (r : Str)
    (hy : yearsShape ys) (how : ow ≠ []) (hnl : ∀ c ∈ ow, c ≠ '\n')
    (hlic : lic ≠ []) (hlnl : ∀ c ∈ lic, c ≠ '\n') :
    spdxTryAt d (headerForm d ys ow lic ++ r) = some ⟨ys, ow, lic, r⟩ := by
  have hsplit : headerForm d ys ow lic ++ r =
      (d.opn ++ '\n' :: (d.lp ++ sfcLit)) ++
        (ys ++ ' ' :: (ow ++ '\n' :: ((d.lp ++ sliLit) ++
          (lic ++ '\n' :: (d.cls ++ r))))) := by
    simp [headerForm]
  have hown : ∀ c ∈ ow, notNl c = true := fun c hc => notNl_iff.mpr (hnl c hc)
  have hlicn : ∀ c ∈ lic, notNl c = true := fun c hc => notNl_iff.mpr (hlnl c hc)
  have hnlf : notNl '\n' = false := by decide
  have how2 := takeWhile_app '\n'
    ((d.lp ++ sliLit) ++ (lic ++ '\n' :: (d.cls ++ r))) hown hnlf
  have hlic2 := takeWhile_app '\n' (d.cls ++ r) hlicn hnlf
  rw [spdxTryAt, hsplit, stripPref_self]
  simp only [spdxYears_render hy, how2.1, how2.2, hlic2.1, hlic2.2,
    stripPref_self, isEmpty_false_of_ne how, isEmpty_false_of_ne hlic,
    Bool.false_eq_true, if_false]

/-- `spdxSearch` returns the leftmost matching offset. -/
theorem spdxSearch_eq {d : Dialect} :
    ∀ {cs : Str} {i : Nat} {g : SpdxG}, spdxSearch d cs = some (i, g) →
      spdxTryAt d (cs.drop i) = some g ∧
        ∀ j, j < i → spdxTryAt d (cs.drop j) = none := by
  intro cs
  induction cs with
  | nil =>
    intro i g h
    unfold spdxSearch at h
    split at h
    · cases h
      exact ⟨by assumption, by intro j hj; omega⟩
    · cases h
  | cons c t ih =>
    intro i g h
    unfold spdxSearch at h
    split at h
    · cases h
      exact ⟨by assumption, by intro j hj; omega⟩
    case _ hnone =>
      split at h
      case _ i2 g2 heq =>
        cases h
        obtain ⟨h1, h2⟩ := ih heq
        refine ⟨h1, ?_⟩
        intro j hj
        match j with
        | 0 => exact hnone
        | j + 1 => exact h2 j (by omega)
      · cases h

/-- An attempt succeeding at offset 0 makes the search return 0. -/
theorem spdxSearch_zero {d : Dialect} {cs : Str} {g : SpdxG}
    (h : spdxTryAt d cs = some g) : spdxSearch d cs = some (0, g) := by
  match cs with
  | [] => unfold spdxSearch; rw [h]
  | c :: t => unfold spdxSearch; rw [h]

/-! ### Expansion lemmas -/

theorem expandGo_noBS {e : GroupEnv} :
    ∀ {cs : Str} {f : Nat}, cs.length ≤ f → '\\' ∉ cs →
      expandGo e f cs = some cs := by
  intro cs
  induction cs with
  | nil => intro f _ _; cases f <;> rfl
  | cons c t ih =>
    intro f hf hb
    match f with
    | 0 => simp at hf
    | f + 1 =>
      have hc : ¬(c = '\\') := by
        intro hx; exact hb (by simp [hx])
      have ht : '\\' ∉ t := fun hx => hb (by simp [hx])
      simp only [expandGo, if_neg hc, ih (by simpa using hf) ht]

theorem expandRepl_noBS {e : GroupEnv} {cs : Str} (h : '\\' ∉ cs) :
    expandRepl e cs = some cs :=
  expandGo_noBS le_rfl h

theorem expandGo_app_noBS {e : GroupEnv} :
    ∀ {a b : Str} {f : Nat}, (a ++ b).length ≤ f → '\\' ∉ a →
      expandGo e f (a ++ b) =
        match expandGo e f b with
        | some r => some (a ++ r)
        | none => none := by
  intro a
  induction a with
  | nil =>
    intro b f _ _
    simp only [List.nil_append]
    match expandGo e f b with
    | some r => rfl
    | none => rfl
  | cons c a ih =>
    intro b f hf hb
    match f with
    | 0 => simp at hf
    | f + 1 =>
      have hc : ¬(c = '\\') := by
        intro hx; exact hb (by simp [hx])
      have ha : '\\' ∉ a := fun hx => hb (by simp [hx])
      have hf1 : (a ++ b).length ≤ f := by simpa using hf
      have hbf : b.length ≤ f := by
        simp only [List.length_append] at hf1
        omega
      have hbf1 : b.length ≤ f + 1 := by omega
      rw [List.cons_append]
      simp only [expandGo, if_neg hc, ih hf1 ha,
        expandGo_congr e f (f + 1) b hbf hbf1]
      match expandGo e (f + 1) b with
      | some r => rfl
      | none => rfl

theorem expandRepl_app_noBS {e : GroupEnv} {a b : Str} (h : '\\' ∉ a) :
    expandRepl e (a ++ b) =
      match expandRepl e b with
      | some r => some (a ++ r)
      | none => none := by
  unfold expandRepl
  rw [expandGo_app_noBS le_rfl h,
    expandGo_congr e (a ++ b).length b.length b (by simp) le_rfl]

/-! ### Structure of legacy-header matches -/

/-- Reassembled text of the part of a legacy match after the `\s+`
preceding the owner. -/
def tailForm (t : LegTail) : Str :=
  t.owner ++ t.term :: (t.mid ++ t.lu ++ t.thetxt ++ t.license)

theorem licTake_split (cs : Str) : cs = licTake cs ++ licDrop cs :=
  (List.takeWhile_append_dropWhile notDotNl cs).symm

theorem theLic_eq {cs th lic r : Str} (h : theLic cs = some (th, lic, r)) :
    cs = th ++ lic ++ r ∧ lic ≠ [] := by
  unfold theLic at h
  split at h
  case _ t0 r0 heq =>
    obtain ⟨hcs, _⟩ := ciPref_eq heq
    split at h
    · split at h
      · cases h
      case _ hne =>
        cases h
        refine ⟨by simpa using (licTake_split cs), by simpa using hne⟩
    case _ hne =>
      cases h
      refine ⟨?_, by simpa using hne⟩
      rw [hcs, List.append_assoc, ← licTake_split r0]
  · split at h
    · cases h
    case _ hne =>
      cases h
      refine ⟨by simpa using (licTake_split cs), by simpa using hne⟩

theorem luTail_eq {cs lu th lic r : Str}
    (h : luTail cs = some (lu, th, lic, r)) :
    cs = lu ++ th ++ lic ++ r ∧ lic ≠ [] := by
  unfold luTail at h
  split at h
  case _ t0 r0 heq =>
    split at h
    case _ th2 lic2 rest2 heq2 =>
      cases h
      obtain ⟨hcs, _⟩ := ciPref_eq heq
      obtain ⟨hr0, hne⟩ := theLic_eq heq2
      refine ⟨by rw [hcs, hr0]; simp, hne⟩
    · cases h
  · cases h

theorem midLu_eq :
    ∀ {cs mid lu th lic r : Str}, midLu cs = some (mid, lu, th, lic, r) →
      cs = mid ++ lu ++ th ++ lic ++ r ∧ lic ≠ [] := by
  intro cs
  induction cs with
  | nil =>
    intro mid lu th lic r h
    unfold midLu at h
    split at h
    case _ heq =>
      cases h
      obtain ⟨he, hne⟩ := luTail_eq heq
      exact ⟨by simpa using he, hne⟩
    · cases h
  | cons c t ih =>
    intro mid lu th lic r h
    unfold midLu at h
    split at h
    case _ heq =>
      cases h
      obtain ⟨he, hne⟩ := luTail_eq heq
      exact ⟨by simpa using he, hne⟩
    · split at h
      · cases h
      · split at h
        case _ mid2 lu2 th2 lic2 r2 heq2 =>
          cases h
          obtain ⟨he, hne⟩ := ih heq2
          refine ⟨by simp [he], hne⟩
        · cases h

theorem ws2Try_eq {w cs : Str} {t : LegTail} (h : ws2Try w cs = some t) :
    t.ws2 = w ∧ cs = tailForm t ++ t.rest ∧ t.owner ≠ [] ∧ t.license ≠ [] := by
  unfold ws2Try at h
  split at h
  · cases h
  case _ hne =>
    split at h
    case _ tc r heq =>
      split at h
      case _ mid lu th lic rest heq2 =>
        cases h
        obtain ⟨hr, hlic⟩ := midLu_eq heq2
        refine ⟨rfl, ?_, by simpa using hne, hlic⟩
        conv_lhs => rw [licTake_split cs]
        rw [heq, hr]
        simp [tailForm]
      · cases h
    · cases h

theorem ws2Loop_eq {wsAll after : Str} :
    ∀ {k : Nat} {t : LegTail}, k ≤ wsAll.length →
      ws2Loop wsAll after k = some t →
      wsAll ++ after = t.ws2 ++ tailForm t ++ t.rest ∧ t.ws2 ≠ [] ∧
        t.owner ≠ [] ∧ t.license ≠ [] := by
  intro k
  induction k with
  | zero => intro t _ h; cases h
  | succ k ih =>
    intro t hk h
    unfold ws2Loop at h
    split at h
    case _ heq =>
      cases h
      obtain ⟨hw, hcs, hown, hlic⟩ := ws2Try_eq heq
      have htake : wsAll ++ after =
          wsAll.take (k + 1) ++ (wsAll.drop (k + 1) ++ after) := by
        rw [← List.append_assoc, List.take_append_drop]
      refine ⟨?_, ?_, hown, hlic⟩
      · rw [htake, hcs, hw]; simp
      · rw [hw]
        have : (wsAll.take (k + 1)).length = k + 1 := by
          rw [List.length_take]
          omega
        intro hx
        rw [hx] at this
        simp at this
    · exact ih (by omega) h

theorem afterYears_eq {cs : Str} {t : LegTail} (h : afterYears cs = some t) :
    cs = t.ws2 ++ tailForm t ++ t.rest ∧ t.ws2 ≠ [] ∧
      t.owner ≠ [] ∧ t.license ≠ [] := by
  unfold afterYears at h
  have hsplit : cs = spTake cs ++ spDrop cs :=
    (List.takeWhile_append_dropWhile isSp cs).symm
  have := ws2Loop_eq le_rfl h
  rw [← hsplit] at this
  exact this

theorem afterKw_eq {cs ws1 yrs : Str} {t : LegTail}
    (h : afterKw cs = some (ws1, yrs, t)) :
    cs = ws1 ++ yrs ++ t.ws2 ++ tailForm t ++ t.rest ∧ yearsShape yrs ∧
      t.owner ≠ [] ∧ t.license ≠ [] := by
  unfold afterKw at h
  split at h
  · cases h
  case _ hne =>
    have hsplit : cs = spTake cs ++ spDrop cs :=
      (List.takeWhile_append_dropWhile isSp cs).symm
    split at h
    · cases h
    case _ y1 r2 heq1 =>
      obtain ⟨hd1, hl1, hdig1⟩ := digits4_eq heq1
      split at h
      case _ r3 =>
        split at h
        · cases h
        case _ y2 r4 heq2 =>
          obtain ⟨hd2, hl2, hdig2⟩ := digits4_eq heq2
          split at h
          case _ t2 heq3 =>
            cases h
            obtain ⟨hr4, hw, hown, hlic⟩ := afterYears_eq heq3
            refine ⟨?_, Or.inr ⟨y1, y2, rfl, hl1, hl2, hdig1, hdig2⟩, hown, hlic⟩
            generalize hg : spTake cs = ws1 at hsplit ⊢
            rw [hsplit, hd1, hd2, hr4]
            simp
          · cases h
      case _ =>
        split at h
        case _ t2 heq3 =>
          cases h
          obtain ⟨hr2, hw, hown, hlic⟩ := afterYears_eq heq3
          refine ⟨?_, Or.inl ⟨hl1, hdig1⟩, hown, hlic⟩
          generalize hg : spTake cs = ws1 at hsplit ⊢
          rw [hsplit, hd1, hr2]
          simp
        · cases h

/-- Head of the keyword alternation: `c`/`C` or `(`. -/
def kwHead (kw : Str) : Prop :=
  ∃ c rest, kw = c :: rest ∧ (c.toLower = 'c' ∨ c.toLower = '(')

theorem kwAt_eq {cs kw r : Str} (h : kwAt cs = some (kw, r)) :
    cs = kw ++ r ∧ kwHead kw := by
  unfold kwAt at h
  split at h
  case _ p heq =>
    cases h
    obtain ⟨c, t2, rfl, hc⟩ := ciPref_head heq
    exact ⟨(ciPref_eq heq).1, c, t2, rfl, Or.inl hc⟩
  · obtain ⟨c, t2, rfl, hc⟩ := ciPref_head h
    exact ⟨(ciPref_eq h).1, c, t2, rfl, Or.inr hc⟩

/-- Reassembled text of a legacy match after the gap. -/
def bodyForm (m : LegG) : Str :=
  m.kw ++ m.ws1 ++ m.years ++ m.ws2 ++ m.owner ++
    m.term :: (m.mid ++ m.lu ++ m.thetxt ++ m.license)

theorem kwTry_eq {cs : Str} {m : LegG} (h : kwTry cs = some m) :
    m.gap = [] ∧ cs = bodyForm m ++ m.rest ∧ kwHead m.kw ∧
      yearsShape m.years ∧ m.owner ≠ [] ∧ m.license ≠ [] := by
  unfold kwTry at h
  split at h
  case _ kw r heq =>
    split at h
    case _ ws1 yrs t heq2 =>
      cases h
      obtain ⟨hcs, hkw⟩ := kwAt_eq heq
      obtain ⟨hr, hy, hown, hlic⟩ := afterKw_eq heq2
      refine ⟨rfl, ?_, hkw, hy, hown, hlic⟩
      rw [hcs, hr]
      simp [mkLegG, bodyForm, tailForm]
    · cases h
  · cases h

theorem gapLoop_zero (cs : Str) : gapLoop 0 cs = kwTry cs := rfl

theorem gapLoop_succ (f : Nat) (cs : Str) :
    gapLoop (f + 1) cs =
      match kwTry cs with
      | some g => some g
      | none =>
        match cs with
        | c :: t =>
          match gapLoop f t with
          | some g => some { g with gap := c :: g.gap }
          | none => none
        | [] => none := rfl

theorem gapLoop_eq :
    ∀ {f : Nat} {cs : Str} {m : LegG}, gapLoop f cs = some m →
      cs = m.gap ++ bodyForm m ++ m.rest ∧ m.gap.length ≤ f ∧
        kwHead m.kw ∧ yearsShape m.years ∧
        m.owner ≠ [] ∧ m.license ≠ [] := by
  intro f
  induction f with
  | zero =>
    intro cs m h
    rw [gapLoop_zero] at h
    obtain ⟨hgap, hcs, hkw, hy, hown, hlic⟩ := kwTry_eq h
    exact ⟨by rw [hgap, List.nil_append]; exact hcs, by simp [hgap], hkw,
      hy, hown, hlic⟩
  | succ f ih =>
    intro cs m h
    rw [gapLoop_succ] at h
    split at h
    case _ g heq =>
      cases h
      obtain ⟨hgap, hcs, hkw, hy, hown, hlic⟩ := kwTry_eq heq
      exact ⟨by rw [hgap, List.nil_append]; exact hcs, by simp [hgap], hkw,
        hy, hown, hlic⟩
    · split at h
      case _ c t =>
        split at h
        case _ g heq =>
          cases h
          obtain ⟨hcs, hlen, hkw, hy, hown, hlic⟩ := ih heq
          refine ⟨?_, by simpa using Nat.succ_le_succ hlen, hkw, hy, hown, hlic⟩
          rw [hcs]
          simp [bodyForm]
        · cases h
      · cases h

theorem legacyTryAt_eq {opn cs : Str} {m : LegG}
    (h : legacyTryAt opn cs = some m) :
    cs = legFormOf opn m ++ m.rest ∧ m.gap.length ≤ 5 ∧
      kwHead m.kw ∧ yearsShape m.years ∧ m.owner ≠ [] ∧ m.license ≠ [] := by
  unfold legacyTryAt at h
  split at h
  case _ r heq =>
    obtain ⟨hcs, hlen, hkw, hy, hown, hlic⟩ := gapLoop_eq h
    refine ⟨?_, hlen, hkw, hy, hown, hlic⟩
    rw [stripPref_eq heq, hcs]
    simp [legFormOf, bodyForm]
  · cases h

theorem legacySearch_eq {opn : Str} :
    ∀ {cs : Str} {i : Nat} {m : LegG}, legacySearch opn cs = some (i, m) →
      legacyTryAt opn (cs.drop i) = some m ∧
        ∀ j, j < i → legacyTryAt opn (cs.drop j) = none := by
  intro cs
  induction cs with
  | nil =>
    intro i m h
    unfold legacySearch at h
    split at h
    · cases h
      exact ⟨by assumption, by intro j hj; omega⟩
    · cases h
  | cons c t ih =>
    intro i m h
    unfold legacySearch at h
    split at h
    · cases h
      exact ⟨by assumption, by intro j hj; omega⟩
    case _ hnone =>
      split at h
      case _ i2 g2 heq =>
        cases h
        obtain ⟨h1, h2⟩ := ih heq
        refine ⟨h1, ?_⟩
        intro j hj
        match j with
        | 0 => exact hnone
        | j + 1 => exact h2 j (by omega)
      · cases h

/-! ### Backslash-freeness and resolver path lemmas -/

/-- No backslash: the condition under which `re.sub` performs no escape
processing on a replacement string. -/
abbrev noBS (cs : Str) : Prop := '\\' ∉ cs

theorem noBS_of_digits {cs : Str} (h : ∀ c ∈ cs, c.isDigit) : noBS cs := by
  intro hx
  exact digit_ne_bs (h _ hx) rfl

theorem noBS_yearStr (y : Nat) : noBS (yearStr y) :=
  noBS_of_digits fun _ hc => natStr_digits hc

theorem noBS_guy {y : Nat} {ys z : Str} (hsh : yearsShape ys)
    (h : get_updated_years y ys = some z) : noBS z := by
  obtain ⟨z2, hz2, hp⟩ := guy_shape y hsh
  rw [h] at hz2
  cases hz2
  intro hx
  rcases hp _ hx with hd | hd
  · exact digit_ne_bs hd rfl
  · cases hd

theorem mem_trimWs {cs : Str} {c : Char} (h : c ∈ trimWs cs) : c ∈ cs := by
  unfold trimWs at h
  rw [List.mem_reverse] at h
  have h1 := (@List.dropWhile_sublist Char ((cs.dropWhile isSp).reverse) isSp).mem h
  rw [List.mem_reverse] at h1
  exact (@List.dropWhile_sublist Char cs isSp).mem h1

theorem noBS_trimWs {cs : Str} (h : noBS cs) : noBS (trimWs cs) :=
  fun hx => h (mem_trimWs hx)

theorem lookup_mem_values {α β : Type} [BEq α] :
    ∀ {l : List (α × β)} {k : α} {v : β},
      l.lookup k = some v → v ∈ l.map Prod.snd := by
  intro l
  induction l with
  | nil => intro k v h; cases h
  | cons p t ih =>
    intro k v h
    rw [List.lookup] at h
    split at h
    · cases h; simp
    · simp only [List.map, List.mem_cons]
      exact Or.inr (ih h)

theorem noBS_normalize {name fb : Str} (hfb : noBS fb) :
    noBS (normalize_license name fb) := by
  unfold normalize_license
  match h : LICENSE_NAME_MAP.lookup (trimWs name) with
  | none => simpa using hfb
  | some v =>
    simp only [Option.getD_some]
    have hv : v ∈ LICENSE_NAME_MAP.map Prod.snd := lookup_mem_values h
    simp only [LICENSE_NAME_MAP, List.map, List.mem_cons,
      List.not_mem_nil, or_false] at hv
    rcases hv with rfl | rfl | rfl | rfl | rfl <;> decide

/-- The registry only ever yields these three dialects. -/
theorem dialects_cases (ft : String) :
    dialects ft = javaD ∨ dialects ft = hashD ∨ dialects ft = xmlD := by
  unfold dialects
  split
  · exact Or.inr (Or.inl rfl)
  · split
    · exact Or.inr (Or.inr rfl)
    · exact Or.inl rfl

/-- The literal part of the template up to the years field. -/
def litSfc (d : Dialect) : Str := d.opn ++ '\n' :: (d.lp ++ sfcLit)

theorem headerForm_split (d : Dialect) (yrs ow lic : Str) :
    headerForm d yrs ow lic =
      litSfc d ++ (yrs ++ ' ' :: ow ++ '\n' :: (d.lp ++ sliLit) ++
        lic ++ '\n' :: d.cls) := by
  simp [headerForm, litSfc]

theorem noBS_litSfc {d : Dialect}
    (hd : d = javaD ∨ d = hashD ∨ d = xmlD) : noBS (litSfc d) := by
  rcases hd with rfl | rfl | rfl <;> decide

theorem mem_headerForm {d : Dialect} {yrs ow lic : Str} {c : Char}
    (h : c ∈ headerForm d yrs ow lic) :
    c ∈ yrs ∨ c ∈ ow ∨ c ∈ lic ∨
      c ∈ (d.opn ++ d.lp ++ sfcLit ++ sliLit ++ d.cls ++ [' ', '\n']) := by
  simp only [headerForm, List.mem_append, List.mem_cons, List.append_assoc,
    List.cons_append, List.mem_singleton] at h ⊢
  tauto

theorem noBS_headerForm {d : Dialect}
    (hd : d = javaD ∨ d = hashD ∨ d = xmlD) {yrs ow lic : Str}
    (h1 : noBS yrs) (h2 : noBS ow) (h3 : noBS lic) :
    noBS (headerForm d yrs ow lic) := by
  intro hx
  rcases mem_headerForm hx with hx | hx | hx | hx
  · exact h1 hx
  · exact h2 hx
  · exact h3 hx
  · rcases hd with rfl | rfl | rfl <;> revert hx <;> decide

/-- Expanding a backslash-free rendered header is the identity. -/
theorem expand_header_noBS (e : GroupEnv) {d : Dialect}
    (hd : d = javaD ∨ d = hashD ∨ d = xmlD) {yrs ow lic : Str}
    (h1 : noBS yrs) (h2 : noBS ow) (h3 : noBS lic) :
    expandRepl e (headerForm d yrs ow lic) = some (headerForm d yrs ow lic) :=
  expandRepl_noBS (noBS_headerForm hd h1 h2 h3)

theorem spdxSub_eq {d : Dialect} {repl cs : Str} {i : Nat} {g : SpdxG} {e : Str}
    (hs : spdxSearch d cs = some (i, g))
    (he : expandRepl (spdxEnv d g) repl = some e) :
    spdxSub d repl cs = some (cs.take i ++ e ++ g.rest) := by
  simp only [spdxSub, hs, he]

theorem legacySub_eq {opn repl cs : Str} {i : Nat} {m : LegG} {e : Str}
    (hs : legacySearch opn cs = some (i, m))
    (he : expandRepl (legEnv opn m) repl = some e) :
    legacySub opn repl cs = some (cs.take i ++ e ++ m.rest) := by
  simp only [legacySub, hs, he]

theorem update_on_spdx {y : Nat} {content : Str} {path : String}
    (fl fo : Str) {i : Nat} {g : SpdxG} {yrs out : Str}
    (hs : spdxSearch (dialects (get_file_type path)) content = some (i, g))
    (hy : get_updated_years y g.years = some yrs)
    (hsub : spdxSub (dialects (get_file_type path))
      (headerForm (dialects (get_file_type path)) yrs g.owner g.license)
      content = some out) :
    update_or_insert_header y content path fl fo = some (out, "spdx_updated") := by
  simp only [update_or_insert_header, hs, hy, hsub]

theorem update_on_legacy {y : Nat} {content : Str} {path : String}
    {fl : Str} (fo : Str) {i : Nat} {m : LegG} {yrs out : Str}
    (hs0 : spdxSearch (dialects (get_file_type path)) content = none)
    (hs : legacySearch (dialects (get_file_type path)).opn content = some (i, m))
    (hy : get_updated_years y m.years = some yrs)
    (hsub : legacySub (dialects (get_file_type path)).opn
      (headerForm (dialects (get_file_type path)) yrs (trimWs m.owner)
        (normalize_license m.license fl)) content = some out) :
    update_or_insert_header y content path fl fo =
      some (out, "non_spdx_converted") := by
  simp only [update_or_insert_header, hs0, hs, hy, hsub]

theorem update_on_insert (y : Nat) {content : Str} {path : String}
    (fl fo : Str)
    (hs0 : spdxSearch (dialects (get_file_type path)) content = none)
    (hs : legacySearch (dialects (get_file_type path)).opn content = none) :
    update_or_insert_header y content path fl fo =
      some (headerForm (dialects (get_file_type path)) (yearStr y) fo fl ++
        '\n' :: '\n' :: content, "header_inserted") := by
  simp only [update_or_insert_header, hs0, hs]

/-! ### The three outcome paths can be told apart, and only the
canonical path can reproduce the input -/

/-- The first characters of the line-2 literal of each dialect: none of
them can open the `(Copyright|\(c\))` alternation. -/
theorem litLine2_no_kw {d : Dialect}
    (hd : d = javaD ∨ d = hashD ∨ d = xmlD) {n : Nat} (hn : n ≤ 5) {c0 : Char}
    (h : ('\n' :: (d.lp ++ sfcLit))[n]? = some c0) :
    ¬(c0.toLower = 'c' ∨ c0.toLower = '(') := by
  intro hor
  rcases hd with rfl | rfl | rfl <;> interval_cases n <;>
    (simp_all [javaD, hashD, xmlD, sfcLit] <;> (subst h; revert hor; decide))

/-- The expansion of a freshly rendered header is never byte-identical
to a legacy-matched span: the span must show `Copyright`/`(c)` within
five characters of the opener, where the rendered header has its fixed
line-2 literal. -/
theorem expand_ne_legSpan {d : Dialect}
    (hd : d = javaD ∨ d = hashD ∨ d = xmlD) {m : LegG}
    (hgap : m.gap.length ≤ 5) (hkw : kwHead m.kw)
    {yrs ow lic e : Str} {env : GroupEnv}
    (he : expandRepl env (headerForm d yrs ow lic) = some e) :
    e ≠ legFormOf d.opn m := by
  intro heq
  rw [headerForm_split, expandRepl_app_noBS (noBS_litSfc hd)] at he
  cases hr : expandRepl env (yrs ++ ' ' :: ow ++ '\n' :: (d.lp ++ sliLit) ++
      lic ++ '\n' :: d.cls) with
  | none => rw [hr] at he; cases he
  | some r =>
    rw [hr] at he
    cases he
    obtain ⟨c0, kr, hk, hc0⟩ := hkw
    have hassoc : legFormOf d.opn m =
        d.opn ++ (m.gap ++ (m.kw ++ (m.ws1 ++ m.years ++ m.ws2 ++ m.owner ++
          m.term :: (m.mid ++ m.lu ++ m.thetxt ++ m.license)))) := by
      simp [legFormOf]
    have hlit : litSfc d ++ r = d.opn ++ ('\n' :: (d.lp ++ sfcLit) ++ r) := by
      simp [litSfc]
    rw [hassoc, hlit] at heq
    have heq2 := List.append_cancel_left heq
    have h2 : (m.gap ++ (m.kw ++ (m.ws1 ++ m.years ++ m.ws2 ++ m.owner ++
        m.term :: (m.mid ++ m.lu ++ m.thetxt ++ m.license))))[m.gap.length]? =
        some c0 := by
      rw [List.getElem?_append_right le_rfl, hk]
      simp
    rw [← heq2] at h2
    have hL : m.gap.length < ('\n' :: (d.lp ++ sfcLit)).length := by
      rcases hd with rfl | rfl | rfl <;> simp [sfcLit] <;> omega
    rw [List.getElem?_append_left hL] at h2
    exact litLine2_no_kw hd hgap h2 hc0

/-- The insertion path always produces strictly longer output. -/
theorem insert_ne {d : Dialect} {yrs ow lic content : Str} :
    headerForm d yrs ow lic ++ '\n' :: '\n' :: content ≠ content := by
  intro h
  have := congrArg List.length h
  simp [headerForm] at this
  omega

/-- Inversion: an outcome tagged `non_spdx_converted` comes from the
legacy path, with its exact output shape. -/
theorem update_legacy_inv {y : Nat} {content : Str} {path : String}
    {fl fo out : Str}
    (h : update_or_insert_header y content path fl fo =
      some (out, "non_spdx_converted")) :
    ∃ i m yrs e,
      spdxSearch (dialects (get_file_type path)) content = none ∧
      legacySearch (dialects (get_file_type path)).opn content = some (i, m) ∧
      get_updated_years y m.years = some yrs ∧
      expandRepl (legEnv (dialects (get_file_type path)).opn m)
        (headerForm (dialects (get_file_type path)) yrs (trimWs m.owner)
          (normalize_license m.license fl)) = some e ∧
      out = content.take i ++ e ++ m.rest := by
  unfold update_or_insert_header at h
  split at h
  · split at h
    · cases h
    · split at h
      · cases h
      · exact absurd
          (show ("spdx_updated" : String) = "non_spdx_converted" from
            congrArg Prod.snd (Option.some.inj h)) (by decide)
  case _ hs0 =>
    split at h
    case _ i m heq =>
      split at h
      · cases h
      case _ yrs hy =>
        split at h
        · cases h
        case _ out2 hsub =>
          have hpair := Option.some.inj h
          have hout : out2 = out := congrArg Prod.fst hpair
          subst hout
          unfold legacySub at hsub
          simp only [heq] at hsub
          split at hsub
          · cases hsub
          case _ e hexp =>
            cases hsub
            exact ⟨i, m, yrs, e, hs0, heq, hy, hexp, rfl⟩
    case _ hleg =>
      exact absurd
        (show ("header_inserted" : String) = "non_spdx_converted" from
          congrArg Prod.snd (Option.some.inj h)) (by decide)

/-- Inversion: an outcome tagged `header_inserted` comes from the
insertion path. -/
theorem update_insert_inv {y : Nat} {content : Str} {path : String}
    {fl fo out : Str}
    (h : update_or_insert_header y content path fl fo =
      some (out, "header_inserted")) :
    out = headerForm (dialects (get_file_type path)) (yearStr y) fo fl ++
      '\n' :: '\n' :: content := by
  unfold update_or_insert_header at h
  split at h
  · split at h
    · cases h
    · split at h
      · cases h
      · exact absurd
          (show ("spdx_updated" : String) = "header_inserted" from
            congrArg Prod.snd (Option.some.inj h)) (by decide)
  · split at h
    · split at h
      · cases h
      · split at h
        · cases h
        · exact absurd
            (show ("non_spdx_converted" : String) = "header_inserted" from
              congrArg Prod.snd (Option.some.inj h)) (by decide)
    · exact (congrArg Prod.fst (Option.some.inj h)).symm

/-- Legacy conversion never returns the input bytes. -/
theorem legacy_out_ne {y : Nat} {content : Str} {path : String}
    {fl fo out : Str}
    (h : update_or_insert_header y content path fl fo =
      some (out, "non_spdx_converted")) :
    out ≠ content := by
  obtain ⟨i, m, yrs, e, hs0, hs, hy, hexp, hout⟩ := update_legacy_inv h
  obtain ⟨htry, _⟩ := legacySearch_eq hs
  obtain ⟨hdec, hgap, hkw, _, _, _⟩ := legacyTryAt_eq htry
  intro hc
  rw [hout] at hc
  conv_rhs at hc => rw [← List.take_append_drop i content, hdec]
  rw [List.append_assoc] at hc
  have h2 := List.append_cancel_left hc
  have h3 := List.append_cancel_right h2
  exact expand_ne_legSpan (dialects_cases (get_file_type path)) hgap hkw
    hexp h3

/-- Header insertion never returns the input bytes. -/
theorem insert_out_ne {y : Nat} {content : Str} {path : String}
    {fl fo out : Str}
    (h : update_or_insert_header y content path fl fo =
      some (out, "header_inserted")) :
    out ≠ content := by
  rw [update_insert_inv h]
  exact insert_ne

/-- End year of a years capture (`splitDash` keeps it total). -/
def endYears (ys : Str) : Str := (splitDash ys).getLastD []

/-- When the end year of the capture is already the current year, the
year update is the identity. -/
theorem guy_id {y : Nat} {ys : Str} (hsh : yearsShape ys)
    (hend : endYears ys = yearStr y) : get_updated_years y ys = some ys := by
  rcases hsh with ⟨h4, hd⟩ | ⟨a, b, rfl, h4a, h4b, hda, hdb⟩
  · have hnd : ∀ c ∈ ys, c ≠ '-' := fun c hc => digit_ne_dash (hd c hc)
    have hend2 : ys = yearStr y := by
      unfold endYears at hend
      rw [splitDash_no_dash hnd] at hend
      simpa using hend
    rw [guy_single h4 hd, if_pos hend2]
  · have hna : ∀ c ∈ a, c ≠ '-' := fun c hc => digit_ne_dash (hda c hc)
    have hnb : ∀ c ∈ b, c ≠ '-' := fun c hc => digit_ne_dash (hdb c hc)
    have hend2 : b = yearStr y := by
      unfold endYears at hend
      rw [splitDash_pair hna hnb] at hend
      simpa using hend
    rw [guy_range hda hdb, hend2]

theorem noBS_years_shape {ys : Str} (h : yearsShape ys) : noBS ys := by
  rcases h with ⟨_, hd⟩ | ⟨a, b, rfl, _, _, hda, hdb⟩
  · exact noBS_of_digits hd
  · intro hx
    simp only [List.mem_append, List.mem_cons] at hx
    rcases hx with hx | hx | hx
    · exact digit_ne_bs (hda _ hx) rfl
    · cases hx
    · exact digit_ne_bs (hdb _ hx) rfl

/-! ### Claims -/

/-- C2 (confirmed): the year-range update rule of `get_updated_years`:
a captured range `A-B` becomes `A-Y` (start year preserved, end year
replaced); a captured single year equal to `str(Y)` is kept; a single
year different from `str(Y)` becomes the range `year-Y`; and the two
concrete instances of the claim: `"2021"` resolved in 2025 gives
`"2021-2025"`, and `"2021-2023"` gives `"2021-2025"`. -/
theorem C2_year_update (y : Nat) (a b S : Str)
    (hda : ∀ c ∈ a, c.isDigit) (hdb : ∀ c ∈ b, c.isDigit)
    (h4s : S.length = 4) (hds : ∀ c ∈ S, c.isDigit) :
    get_updated_years y (a ++ '-' :: b) = some (a ++ '-' :: yearStr y) ∧
    (S = yearStr y → get_updated_years y S = some S) ∧
    (S ≠ yearStr y →
      get_updated_years y S = some (S ++ '-' :: yearStr y)) ∧
    get_updated_years 2025 (("2021").data) = some (("2021-2025").data) ∧
    get_updated_years 2025 (("2021-2023").data) =
      some (("2021-2025").data) := by
  refine ⟨guy_range hda hdb, ?_, ?_, by decide, by decide⟩
  · intro heq
    rw [guy_single h4s hds, if_pos heq]
  · intro hne
    rw [guy_single h4s hds, if_neg hne]

/-- Witness for `C2_year_update` at `a = "2021"`, `b = "2023"`,
`S = "2021"`, `y = 2025`. -/
theorem C2_year_update_witness :
    get_updated_years 2025 (("2021").data ++ '-' :: ("2023").data) =
      some (("2021").data ++ '-' :: yearStr 2025) ∧
    get_updated_years 2025 (("2021").data) =
      some (("2021").data ++ '-' :: yearStr 2025) := by
  have h := C2_year_update 2025 (("2021").data) (("2023").data)
    (("2021").data) (by decide) (by decide) (by decide) (by decide)
  exact ⟨h.1, h.2.2.1 (by decide)⟩

/-- C7 (confirmed): `normalize_license` trims the free text, looks the
trimmed string up case-sensitively in `LICENSE_NAME_MAP`, returns the
mapped identifier on a hit and the fallback unchanged otherwise; it is
a total function (no exception path exists).  Consequently unmapped
free text is always replaced by the fallback, never kept: the
case-variant `"mit"` and the unknown `"Unknown License"` both map to
the fallback. -/
theorem C7_normalize_license (name fb : Str) :
    (∀ v, LICENSE_NAME_MAP.lookup (trimWs name) = some v →
      normalize_license name fb = v) ∧
    (LICENSE_NAME_MAP.lookup (trimWs name) = none →
      normalize_license name fb = fb) ∧
    normalize_license (("  MIT ").data) fb = ("MIT").data ∧
    normalize_license (("mit").data) fb = fb ∧
    normalize_license (("Unknown License").data) fb = fb := by
  refine ⟨?_, ?_, ?_, ?_, ?_⟩
  · intro v hv
    unfold normalize_license
    rw [hv]
    rfl
  · intro hv
    unfold normalize_license
    rw [hv]
    rfl
  · unfold normalize_license
    rfl
  · unfold normalize_license
    rfl
  · unfold normalize_license
    rfl

/-- Witness for `C7_normalize_license` at `name = " GPLv3 "`,
`fb = "Apache-2.0"`. -/
theorem C7_normalize_license_witness :
    normalize_license ((" GPLv3 ").data) (("Apache-2.0").data) =
      ("GPL-3.0-only").data ∧
    normalize_license (("Apache License").data) (("Apache-2.0").data) =
      ("Apache-2.0").data :=
  ⟨(C7_normalize_license ((" GPLv3 ").data) (("Apache-2.0").data)).1
      (("GPL-3.0-only").data) (by decide),
   (C7_normalize_license (("Apache License").data) (("Apache-2.0").data)).2.1
      (by decide)⟩

/-- C9 (confirmed): dialect selection is a total pure function of the
lower-cased extension through `EXTENSION_MAP`, with any absent
extension falling back to the brace-style (`java`) dialect; `.kt` and
`.css` select brace-style, `.yml` hash-style, `.svg` angle-style, the
unknown `.rs` the brace-style default; the comparison is
case-insensitive (`.KT` behaves like `.kt`). -/
theorem C9_dialect_selection :
    (∀ p : String,
      EXTENSION_MAP.lookup (String.mk (lowerStr (extOf p.data))) = none →
        get_file_type p = "java") ∧
    dialects (get_file_type ("a.kt")) = javaD ∧
    dialects (get_file_type ("a.css")) = javaD ∧
    dialects (get_file_type ("a.yml")) = hashD ∧
    dialects (get_file_type ("a.svg")) = xmlD ∧
    dialects (get_file_type ("a.rs")) = javaD ∧
    get_file_type ("A.KT") = get_file_type ("a.kt") := by
  refine ⟨?_, by decide, by decide, by decide, by decide, by decide, by decide⟩
  intro p hp
  unfold get_file_type
  rw [hp]
  rfl

/-- Witness for `C9_dialect_selection` at the unlisted extension
`.xyz`. -/
theorem C9_dialect_selection_witness :
    EXTENSION_MAP.lookup (String.mk (lowerStr (extOf ("b.xyz").data))) =
      none ∧
    get_file_type ("b.xyz") = "java" :=
  ⟨by decide, C9_dialect_selection.1 ("b.xyz") (by decide)⟩

theorem processOutcome_of_update {y : Nat} {content : Str} {path : String}
    {fl fo out : Str} {ct : String}
    (h : update_or_insert_header y content path fl fo = some (out, ct)) :
    processOutcome y content path fl fo =
      some (if content = out then "unchanged" else ct) := by
  unfold processOutcome
  simp only [h]

/-- C5 (confirmed): when neither matcher matches, the resolver renders
the canonical header with the current year as a single-year string,
the fallback license and the fallback owner, prepends it separated by
exactly one blank line (`"\n\n"`), leaves the original content
unchanged after it, and reports `header_inserted` (also at the
`process_file` level, since the output is strictly longer than the
input); the concrete `.py` instance of the claim is included. -/
theorem C5_insertion (y : Nat) (content : Str) (path : String) (fl fo : Str)
    (h0 : spdxSearch (dialects (get_file_type path)) content = none)
    (h1 : legacySearch (dialects (get_file_type path)).opn content = none) :
    update_or_insert_header y content path fl fo =
      some (headerForm (dialects (get_file_type path)) (yearStr y) fo fl ++
        '\n' :: '\n' :: content, "header_inserted") ∧
    processOutcome y content path fl fo = some "header_inserted" ∧
    update_or_insert_header 2025 (("print(1)\n").data) "x.py"
        (("MIT").data) (("Acme Co").data) =
      some ((("#\n# SPDX-FileCopyrightText: 2025 Acme Co\n# SPDX-License-Identifier: MIT\n#\n\nprint(1)\n").data),
        "header_inserted") := by
  have hupd := update_on_insert y fl fo h0 h1
  refine ⟨hupd, ?_, by decide⟩
  rw [processOutcome_of_update hupd,
    if_neg (fun hx => insert_ne hx.symm)]

/-- Witness for `C5_insertion` at `content = "print(1)\n"`,
`path = "x.py"`. -/
theorem C5_insertion_witness :
    spdxSearch (dialects (get_file_type "x.py")) (("print(1)\n").data) =
      none ∧
    processOutcome 2025 (("print(1)\n").data) "x.py" (("MIT").data)
      (("Acme Co").data) = some "header_inserted" :=
  ⟨by decide,
   (C5_insertion 2025 (("print(1)\n").data) "x.py" (("MIT").data)
      (("Acme Co").data) (by decide) (by decide)).2.1⟩

/-- C10 (confirmed): rendering any dialect's template with a years
string of shape `YYYY` or `YYYY-YYYY`, a non-empty newline-free owner
and a non-empty newline-free license produces text that the same
dialect's canonical matcher matches at offset 0 (so a header written
in one run is recognised as canonical — not legacy, not missing —
in a later run, the canonical matcher being tried first), recapturing
exactly the same years, owner and license. -/
theorem C10_render_match_roundtrip (d : Dialect)
    (hd : d = javaD ∨ d = hashD ∨ d = xmlD)
    (ys ow lic : Str) (hy : yearsShape ys)
    (how : ow ≠ []) (hnl : ∀ c ∈ ow, c ≠ '\n')
    (hlic : lic ≠ []) (hlnl : ∀ c ∈ lic, c ≠ '\n') :
    spdxSearch d (headerForm d ys ow lic) = some (0, ⟨ys, ow, lic, []⟩) := by
  apply spdxSearch_zero
  have h := spdxTryAt_render d [] hy how hnl hlic hlnl
  rwa [List.append_nil] at h

/-- Witness for `C10_render_match_roundtrip` at the hash dialect with
years `"2021-2023"`, owner `"Acme Co"`, license `"MIT"`. -/
theorem C10_render_match_roundtrip_witness :
    spdxSearch hashD
      (headerForm hashD (("2021-2023").data) (("Acme Co").data)
        (("MIT").data)) =
      some (0, ⟨("2021-2023").data, ("Acme Co").data, ("MIT").data, []⟩) :=
  C10_render_match_roundtrip hashD (Or.inr (Or.inl rfl))
    (("2021-2023").data) (("Acme Co").data) (("MIT").data)
    (Or.inr ⟨("2021").data, ("2023").data, rfl, by decide, by decide,
      by decide, by decide⟩)
    (by decide) (by decide) (by decide) (by decide)

/-- C3 (corrected/amended): when the canonical matcher matches and the
captured owner and license contain no backslash, the resolver replaces
exactly the first matched span (no earlier offset matches) with the
template re-rendered from the verbatim captured owner and license and
the updated years, every byte outside the span (the prefix of length
`i` and the remainder after the span) being preserved; the outcome is
`spdx_updated`.  (Without the no-backslash condition the claim fails:
`re.sub` processes escape sequences in the replacement, see the
counterexample.) -/
theorem C3_canonical_refresh (y : Nat) (content : Str) (path : String)
    (fl fo : Str) (i : Nat) (g : SpdxG)
    (hs : spdxSearch (dialects (get_file_type path)) content = some (i, g))
    (h2 : noBS g.owner) (h3 : noBS g.license) :
    ∃ yrs, get_updated_years y g.years = some yrs ∧
      update_or_insert_header y content path fl fo =
        some (content.take i ++
          headerForm (dialects (get_file_type path)) yrs g.owner g.license ++
          g.rest, "spdx_updated") ∧
      content = content.take i ++
        spdxFormOf (dialects (get_file_type path)) g ++ g.rest ∧
      (∀ j, j < i →
        spdxTryAt (dialects (get_file_type path)) (content.drop j) = none) := by
  obtain ⟨htry, hmin⟩ := spdxSearch_eq hs
  obtain ⟨hdec, hysh, _, _, _, _⟩ := spdxTryAt_eq htry
  obtain ⟨yrs, hyrs, _⟩ := guy_shape y hysh
  have h1 : noBS yrs := noBS_guy hysh hyrs
  have hexp := expand_header_noBS
    (spdxEnv (dialects (get_file_type path)) g)
    (dialects_cases (get_file_type path)) h1 h2 h3
  have hsub := spdxSub_eq hs hexp
  refine ⟨yrs, hyrs, update_on_spdx fl fo hs hyrs hsub, ?_, hmin⟩
  conv_lhs => rw [← List.take_append_drop i content, hdec]
  rw [List.append_assoc]

/-- Witness for `C3_canonical_refresh` at a concrete Java file. -/
theorem C3_canonical_refresh_witness :
    spdxSearch (dialects (get_file_type "A.java"))
      (("/*\n * SPDX-FileCopyrightText: 2020 Acme\n * SPDX-License-Identifier: MIT\n */\ncode\n").data) =
      some (0, ⟨("2020").data, ("Acme").data, ("MIT").data,
        ("\ncode\n").data⟩) ∧
    ∃ yrs, get_updated_years 2025 (("2020").data) = some yrs ∧
      update_or_insert_header 2025
          (("/*\n * SPDX-FileCopyrightText: 2020 Acme\n * SPDX-License-Identifier: MIT\n */\ncode\n").data)
          "A.java" (("Apache-2.0").data) (("L").data) =
        some ((("/*\n * SPDX-FileCopyrightText: 2020 Acme\n * SPDX-License-Identifier: MIT\n */\ncode\n").data).take 0 ++
          headerForm (dialects (get_file_type "A.java")) yrs (("Acme").data)
            (("MIT").data) ++ ("\ncode\n").data, "spdx_updated") ∧
      (("/*\n * SPDX-FileCopyrightText: 2020 Acme\n * SPDX-License-Identifier: MIT\n */\ncode\n").data) =
        (("/*\n * SPDX-FileCopyrightText: 2020 Acme\n * SPDX-License-Identifier: MIT\n */\ncode\n").data).take 0 ++
        spdxFormOf (dialects (get_file_type "A.java"))
          ⟨("2020").data, ("Acme").data, ("MIT").data, ("\ncode\n").data⟩ ++
        ("\ncode\n").data ∧
      (∀ j, j < 0 →
        spdxTryAt (dialects (get_file_type "A.java"))
          ((("/*\n * SPDX-FileCopyrightText: 2020 Acme\n * SPDX-License-Identifier: MIT\n */\ncode\n").data).drop j) = none) :=
  ⟨by decide,
   C3_canonical_refresh 2025
     (("/*\n * SPDX-FileCopyrightText: 2020 Acme\n * SPDX-License-Identifier: MIT\n */\ncode\n").data)
     "A.java" (("Apache-2.0").data) (("L").data) 0
     ⟨("2020").data, ("Acme").data, ("MIT").data, ("\ncode\n").data⟩
     (by decide) (by decide) (by decide)⟩

/-- Counterexample to C3 as stated: with captured owner `A\1B` (which
contains a backslash), `re.sub` expands `\1` to group 1 (the original
years capture `2020`), so the replaced span is NOT the template
re-rendered with the verbatim owner: the output contains `A2020B`. -/
theorem C3_counterexample :
    update_or_insert_header 2025
        (("/*\n * SPDX-FileCopyrightText: 2020 A\\1B\n * SPDX-License-Identifier: MIT\n */\nbody\n").data)
        "A.java" (("Apache-2.0").data) (("L").data) =
      some ((("/*\n * SPDX-FileCopyrightText: 2020-2025 A2020B\n * SPDX-License-Identifier: MIT\n */\nbody\n").data),
        "spdx_updated") ∧
    spdxSearch javaD
      (("/*\n * SPDX-FileCopyrightText: 2020 A\\1B\n * SPDX-License-Identifier: MIT\n */\nbody\n").data) =
      some (0, ⟨("2020").data, ("A\\1B").data, ("MIT").data,
        ("\nbody\n").data⟩) ∧
    (("/*\n * SPDX-FileCopyrightText: 2020-2025 A2020B\n * SPDX-License-Identifier: MIT\n */\nbody\n").data) ≠
      headerForm javaD (("2020-2025").data) (("A\\1B").data) (("MIT").data) ++
        ("\nbody\n").data := by
  refine ⟨by decide, by decide, by decide⟩

/-- C1 (corrected/amended): when the FIRST canonical-header match of the
text has end year equal to the current processing year and its captured
owner and license contain no backslash, resolving returns output
byte-identical to the input, `process_file` reports `unchanged` and the
file is not rewritten — and since the output equals the input, a second
resolve in the same year is the very same computation and again reports
`unchanged` with identical bytes.  Moreover a byte-identical result can
only arise on the canonical-refresh path: the legacy-conversion and
insertion paths always change the bytes (last two conjuncts, for every
input).  (As stated the claim fails: only the first match governs, see
the counterexample with a second, current-year header.) -/
theorem C1_canonical_refresh_idempotent
    (y : Nat) (content : Str) (path : String) (fl fo : Str)
    (i : Nat) (g : SpdxG)
    (hs : spdxSearch (dialects (get_file_type path)) content = some (i, g))
    (hend : endYears g.years = yearStr y)
    (h2 : noBS g.owner) (h3 : noBS g.license) :
    update_or_insert_header y content path fl fo =
      some (content, "spdx_updated") ∧
    processOutcome y content path fl fo = some "unchanged" ∧
    (∀ c out, update_or_insert_header y c path fl fo =
      some (out, "non_spdx_converted") → out ≠ c) ∧
    (∀ c out, update_or_insert_header y c path fl fo =
      some (out, "header_inserted") → out ≠ c) := by
  obtain ⟨htry, hmin⟩ := spdxSearch_eq hs
  obtain ⟨hdec, hysh, _, _, _, _⟩ := spdxTryAt_eq htry
  have hyrs : get_updated_years y g.years = some g.years := guy_id hysh hend
  have h1 : noBS g.years := noBS_years_shape hysh
  have hexp := expand_header_noBS
    (spdxEnv (dialects (get_file_type path)) g)
    (dialects_cases (get_file_type path)) h1 h2 h3
  have hsub := spdxSub_eq hs hexp
  have hout : content.take i ++
      headerForm (dialects (get_file_type path)) g.years g.owner g.license ++
      g.rest = content := by
    have hform : headerForm (dialects (get_file_type path)) g.years g.owner
        g.license = spdxFormOf (dialects (get_file_type path)) g := rfl
    rw [hform]
    conv_rhs => rw [← List.take_append_drop i content, hdec]
    rw [List.append_assoc]
  have hupd := update_on_spdx fl fo hs hyrs hsub
  rw [hout] at hupd
  refine ⟨hupd, ?_, fun c out h => legacy_out_ne h,
    fun c out h => insert_out_ne h⟩
  rw [processOutcome_of_update hupd, if_pos rfl]

/-- Witness for `C1_canonical_refresh_idempotent` at a Java file whose
(only) canonical header already ends in the current year. -/
theorem C1_canonical_refresh_idempotent_witness :
    spdxSearch (dialects (get_file_type "A.java"))
      (("/*\n * SPDX-FileCopyrightText: 2021-2025 Acme\n * SPDX-License-Identifier: MIT\n */\ncode\n").data) =
      some (0, ⟨("2021-2025").data, ("Acme").data, ("MIT").data,
        ("\ncode\n").data⟩) ∧
    processOutcome 2025
      (("/*\n * SPDX-FileCopyrightText: 2021-2025 Acme\n * SPDX-License-Identifier: MIT\n */\ncode\n").data)
      "A.java" (("Apache-2.0").data) (("L").data) = some "unchanged" :=
  ⟨by decide,
   (C1_canonical_refresh_idempotent 2025
     (("/*\n * SPDX-FileCopyrightText: 2021-2025 Acme\n * SPDX-License-Identifier: MIT\n */\ncode\n").data)
     "A.java" (("Apache-2.0").data) (("L").data) 0
     ⟨("2021-2025").data, ("Acme").data, ("MIT").data, ("\ncode\n").data⟩
     (by decide) (by decide) (by decide) (by decide)).2.1⟩

/-- Counterexample to C1 as stated: this text CONTAINS a canonical
header whose end year equals the processing year 2025 (the second
header, at offset 76), yet resolving is not byte-identical and the
outcome is `spdx_updated`, not `unchanged`: the resolver only consults
the FIRST match, whose end year is 2020. -/
theorem C1_counterexample :
    spdxTryAt javaD
      ((("/*\n * SPDX-FileCopyrightText: 2020 Acme\n * SPDX-License-Identifier: MIT\n */\n/*\n * SPDX-FileCopyrightText: 2025 Acme\n * SPDX-License-Identifier: MIT\n */").data).drop 76) =
      some ⟨("2025").data, ("Acme").data, ("MIT").data, []⟩ ∧
    processOutcome 2025
      (("/*\n * SPDX-FileCopyrightText: 2020 Acme\n * SPDX-License-Identifier: MIT\n */\n/*\n * SPDX-FileCopyrightText: 2025 Acme\n * SPDX-License-Identifier: MIT\n */").data)
      "A.java" (("Apache-2.0").data) (("L").data) = some "spdx_updated" ∧
    update_or_insert_header 2025
        (("/*\n * SPDX-FileCopyrightText: 2020 Acme\n * SPDX-License-Identifier: MIT\n */\n/*\n * SPDX-FileCopyrightText: 2025 Acme\n * SPDX-License-Identifier: MIT\n */").data)
        "A.java" (("Apache-2.0").data) (("L").data) =
      some ((("/*\n * SPDX-FileCopyrightText: 2020-2025 Acme\n * SPDX-License-Identifier: MIT\n */\n/*\n * SPDX-FileCopyrightText: 2025 Acme\n * SPDX-License-Identifier: MIT\n */").data),
        "spdx_updated") ∧
    (("/*\n * SPDX-FileCopyrightText: 2020-2025 Acme\n * SPDX-License-Identifier: MIT\n */\n/*\n * SPDX-FileCopyrightText: 2025 Acme\n * SPDX-License-Identifier: MIT\n */").data) ≠
      (("/*\n * SPDX-FileCopyrightText: 2020 Acme\n * SPDX-License-Identifier: MIT\n */\n/*\n * SPDX-FileCopyrightText: 2025 Acme\n * SPDX-License-Identifier: MIT\n */").data) := by
  refine ⟨by decide, by decide, by decide, by decide⟩

/-- C4 (corrected/amended): when the canonical matcher does not match,
the legacy matcher does, and neither the fallback license nor the
captured owner contains a backslash, the resolver replaces exactly the
first matched legacy span with the freshly rendered canonical header
(updated years, trimmed owner, normalized license), preserving every
byte before and after the span, and the reported outcome is
`non_spdx_converted` (the output is never byte-identical to the
input).  (The original "the output contains exactly one canonical
header" is dropped: the counterexample shows an output in which the
canonical matcher matches at two distinct offsets.) -/
theorem C4_legacy_conversion (y : Nat) (content : Str) (path : String)
    (fl fo : Str) (i : Nat) (m : LegG)
    (hs0 : spdxSearch (dialects (get_file_type path)) content = none)
    (hs : legacySearch (dialects (get_file_type path)).opn content =
      some (i, m))
    (hfl : noBS fl) (hown : noBS m.owner) :
    ∃ yrs, get_updated_years y m.years = some yrs ∧
      update_or_insert_header y content path fl fo =
        some (content.take i ++
          headerForm (dialects (get_file_type path)) yrs (trimWs m.owner)
            (normalize_license m.license fl) ++ m.rest,
          "non_spdx_converted") ∧
      content = content.take i ++
        legFormOf (dialects (get_file_type path)).opn m ++ m.rest ∧
      processOutcome y content path fl fo = some "non_spdx_converted" ∧
      (∀ j, j < i →
        legacyTryAt (dialects (get_file_type path)).opn (content.drop j) =
          none) := by
  obtain ⟨htry, hmin⟩ := legacySearch_eq hs
  obtain ⟨hdec, hgap, hkw, hysh, _, _⟩ := legacyTryAt_eq htry
  obtain ⟨yrs, hyrs, _⟩ := guy_shape y hysh
  have h1 : noBS yrs := noBS_guy hysh hyrs
  have h2 : noBS (trimWs m.owner) := noBS_trimWs hown
  have h3 : noBS (normalize_license m.license fl) := noBS_normalize hfl
  have hexp := expand_header_noBS
    (legEnv (dialects (get_file_type path)).opn m)
    (dialects_cases (get_file_type path)) h1 h2 h3
  have hsub := legacySub_eq hs hexp
  have hupd := update_on_legacy fo hs0 hs hyrs hsub
  refine ⟨yrs, hyrs, hupd, ?_, ?_, hmin⟩
  · conv_lhs => rw [← List.take_append_drop i content, hdec]
    rw [List.append_assoc]
  · rw [processOutcome_of_update hupd,
      if_neg (fun hx => legacy_out_ne hupd hx.symm)]

/-- Witness for `C4_legacy_conversion` at a concrete Java file with a
legacy header. -/
theorem C4_legacy_conversion_witness :
    legacySearch (dialects (get_file_type "A.java")).opn
      (("/*\n * Copyright 2020 Acme Corp\n * Licensed under the Apache License, Version 2.0.\n */\ncode\n").data) =
      some (0, ⟨("\n * ").data, ("Copyright").data, (" ").data,
        ("2020").data, (" ").data, ("Acme Corp").data, '\n',
        (" * ").data, ("Licensed under ").data, ("the ").data,
        ("Apache License, Version 2").data,
        (".0.\n */\ncode\n").data⟩) ∧
    processOutcome 2025
      (("/*\n * Copyright 2020 Acme Corp\n * Licensed under the Apache License, Version 2.0.\n */\ncode\n").data)
      "A.java" (("Apache-2.0").data) (("L").data) =
      some "non_spdx_converted" := by
  refine ⟨by decide, ?_⟩
  obtain ⟨yrs, hyrs, hupd, hdec, hpo, hmin⟩ := C4_legacy_conversion 2025
    (("/*\n * Copyright 2020 Acme Corp\n * Licensed under the Apache License, Version 2.0.\n */\ncode\n").data)
    "A.java" (("Apache-2.0").data) (("L").data) 0
    ⟨("\n * ").data, ("Copyright").data, (" ").data, ("2020").data,
      (" ").data, ("Acme Corp").data, '\n', (" * ").data,
      ("Licensed under ").data, ("the ").data,
      ("Apache License, Version 2").data, (".0.\n */\ncode\n").data⟩
    (by decide) (by decide) (by decide) (by decide)
  exact hpo

/-- Counterexample to "the output contains exactly one canonical
header": on this `.py` input the legacy conversion produces an output
in which the hash-dialect canonical matcher matches at offset 2 (a
block straddling untouched content and the first byte of the new
header) AND at offset 65 (the new header itself). -/
theorem C4_counterexample :
    update_or_insert_header 2025
        (("x\n#\n# SPDX-FileCopyrightText: 2020 A\n# SPDX-License-Identifier: B# (c) 2020 A\nLicensed under MIT").data)
        "a.py" (("Apache-2.0").data) (("OW").data) =
      some ((("x\n#\n# SPDX-FileCopyrightText: 2020 A\n# SPDX-License-Identifier: B#\n# SPDX-FileCopyrightText: 2020-2025 A\n# SPDX-License-Identifier: MIT\n#").data),
        "non_spdx_converted") ∧
    (spdxTryAt hashD
      ((("x\n#\n# SPDX-FileCopyrightText: 2020 A\n# SPDX-License-Identifier: B#\n# SPDX-FileCopyrightText: 2020-2025 A\n# SPDX-License-Identifier: MIT\n#").data).drop 2)).isSome =
      true ∧
    (spdxTryAt hashD
      ((("x\n#\n# SPDX-FileCopyrightText: 2020 A\n# SPDX-License-Identifier: B#\n# SPDX-FileCopyrightText: 2020-2025 A\n# SPDX-License-Identifier: MIT\n#").data).drop 65)).isSome =
      true := by
  refine ⟨by decide, by decide, by decide⟩

/-- C8 (corrected/amended): the resolver returns a pair for every input
text whose matched captures (owner and license of a canonical match,
owner of a legacy match) and fallback license contain no backslash —
and a text matched by neither matcher (in particular a malformed
legacy header lacking the required captures) falls through to header
insertion, producing no corrupted header and no error.  (Unrestricted,
the claim fails: a backslash escape such as `\q` in a captured owner
makes `re.sub` raise, see the counterexample.) -/
theorem C8_resolver_totality (y : Nat) (content : Str) (path : String)
    (fl fo : Str) (hfl : noBS fl)
    (hspdx : ∀ i g,
      spdxSearch (dialects (get_file_type path)) content = some (i, g) →
        noBS g.owner ∧ noBS g.license)
    (hleg : ∀ i m,
      legacySearch (dialects (get_file_type path)).opn content =
        some (i, m) → noBS m.owner) :
    (∃ r, update_or_insert_header y content path fl fo = some r) ∧
    (spdxSearch (dialects (get_file_type path)) content = none →
      legacySearch (dialects (get_file_type path)).opn content = none →
      update_or_insert_header y content path fl fo =
        some (headerForm (dialects (get_file_type path)) (yearStr y) fo fl ++
          '\n' :: '\n' :: content, "header_inserted")) := by
  match hsp : spdxSearch (dialects (get_file_type path)) content with
  | some (i, g) =>
    obtain ⟨h2, h3⟩ := hspdx i g hsp
    obtain ⟨htry, _⟩ := spdxSearch_eq hsp
    obtain ⟨_, hysh, _, _, _, _⟩ := spdxTryAt_eq htry
    obtain ⟨yrs, hyrs, _⟩ := guy_shape y hysh
    have hexp := expand_header_noBS
      (spdxEnv (dialects (get_file_type path)) g)
      (dialects_cases (get_file_type path)) (noBS_guy hysh hyrs) h2 h3
    refine ⟨⟨_, update_on_spdx fl fo hsp hyrs (spdxSub_eq hsp hexp)⟩, ?_⟩
    intro h0 _
    simp [hsp] at h0
  | none =>
    match hlg : legacySearch (dialects (get_file_type path)).opn content with
    | some (i, m) =>
      have hown := hleg i m hlg
      obtain ⟨htry, _⟩ := legacySearch_eq hlg
      obtain ⟨_, _, _, hysh, _, _⟩ := legacyTryAt_eq htry
      obtain ⟨yrs, hyrs, _⟩ := guy_shape y hysh
      have hexp := expand_header_noBS
        (legEnv (dialects (get_file_type path)).opn m)
        (dialects_cases (get_file_type path)) (noBS_guy hysh hyrs)
        (noBS_trimWs hown) (@noBS_normalize m.license fl hfl)
      refine ⟨⟨_, update_on_legacy fo hsp hlg hyrs (legacySub_eq hlg hexp)⟩,
        ?_⟩
      intro _ h1
      simp [hlg] at h1
    | none =>
      exact ⟨⟨_, update_on_insert y fl fo hsp hlg⟩,
        fun _ _ => update_on_insert y fl fo hsp hlg⟩

/-- Witness for `C8_resolver_totality` at a malformed legacy header
(`Copyright` line but no `Licensed under` clause): neither matcher
matches and the file falls through to insertion. -/
theorem C8_resolver_totality_witness :
    spdxSearch (dialects (get_file_type "a.py"))
      (("# Copyright 2020 Acme\nno license\n").data) = none ∧
    legacySearch (dialects (get_file_type "a.py")).opn
      (("# Copyright 2020 Acme\nno license\n").data) = none ∧
    update_or_insert_header 2025 (("# Copyright 2020 Acme\nno license\n").data)
      "a.py" (("Apache-2.0").data) (("Lucimber UG").data) =
      some (headerForm (dialects (get_file_type "a.py")) (yearStr 2025)
        (("Lucimber UG").data) (("Apache-2.0").data) ++
        '\n' :: '\n' :: ("# Copyright 2020 Acme\nno license\n").data,
        "header_inserted") := by
  refine ⟨by decide, by decide, ?_⟩
  exact (C8_resolver_totality 2025 (("# Copyright 2020 Acme\nno license\n").data)
    "a.py" (("Apache-2.0").data) (("Lucimber UG").data) (by decide)
    (fun i g h => Option.noConfusion
      ((by decide : spdxSearch (dialects (get_file_type "a.py"))
        (("# Copyright 2020 Acme\nno license\n").data) = none) ▸ h))
    (fun i m h => Option.noConfusion
      ((by decide : legacySearch (dialects (get_file_type "a.py")).opn
        (("# Copyright 2020 Acme\nno license\n").data) = none) ▸ h))).2
    (by decide) (by decide)

/-- Counterexample to C8 as stated: on this well-formed text the
resolver raises (`re.error: bad escape \q` from `re.sub`, modelled as
`none`): the captured owner `A\qB` reaches the replacement string and
its `\q` is an invalid escape. -/
theorem C8_counterexample :
    update_or_insert_header 2025
      (("/*\n * SPDX-FileCopyrightText: 2020 A\\qB\n * SPDX-License-Identifier: MIT\n */").data)
      "A.java" (("Apache-2.0").data) (("L").data) = none := by
  decide

/-! ### C6: the matchers are unanchored -/

/-- A body of `n` junk lines (`"x\n"` repeated) that no header pattern
can match into. -/
def junk : Nat → Str
  | 0 => []
  | n + 1 => 'x' :: '\n' :: junk n

theorem junk_len (n : Nat) : (junk n).length = 2 * n := by
  induction n with
  | zero => rfl
  | succ n ih => simp [junk, ih]; omega

theorem spdxTryAt_javaD_cons {c : Char} (hc : c ≠ '/') (t : Str) :
    spdxTryAt javaD (c :: t) = none := by
  have hpre : javaD.opn ++ '\n' :: (javaD.lp ++ sfcLit) =
      '/' :: ("*\n * SPDX-FileCopyrightText: ").data := by decide
  unfold spdxTryAt
  rw [hpre]
  unfold stripPref
  rw [if_neg (fun h => hc h.symm)]

theorem spdxSearch_cons_none {d : Dialect} {c : Char} {t : Str}
    (h : spdxTryAt d (c :: t) = none) :
    spdxSearch d (c :: t) =
      match spdxSearch d t with
      | some (i, g) => some (i + 1, g)
      | none => none := by
  conv_lhs => unfold spdxSearch
  rw [h]

/-- The header block used in the depth-independence theorem. -/
def deepHdr : Str :=
  ("/*\n * SPDX-FileCopyrightText: 2020-2021 Acme\n * SPDX-License-Identifier: MIT\n */").data

def deepG : SpdxG :=
  ⟨("2020-2021").data, ("Acme").data, ("MIT").data, []⟩

theorem deep_search (n : Nat) :
    spdxSearch javaD (junk n ++ deepHdr) = some (2 * n, deepG) := by
  induction n with
  | zero =>
    show spdxSearch javaD deepHdr = some (0, deepG)
    exact spdxSearch_zero (by decide)
  | succ n ih =>
    show spdxSearch javaD ('x' :: '\n' :: (junk n ++ deepHdr)) = _
    rw [spdxSearch_cons_none (spdxTryAt_javaD_cons (by decide) _),
      spdxSearch_cons_none (spdxTryAt_javaD_cons (by decide) _), ih]
    show some (2 * n + 1 + 1, deepG) = some (2 * (n + 1), deepG)
    have h2 : 2 * n + 1 + 1 = 2 * (n + 1) := by omega
    rw [h2]

/-- C6 (corrected/amended): header recognition is NOT restricted to the
top of the file: the matchers are unanchored and the first match
anywhere in the text is used, so a canonical header after `n` junk
lines — for every `n` — is still found, refreshed in place and
reported as `spdx_updated`, never treated as a missing header. -/
theorem C6_header_found_anywhere (n : Nat) (fl fo : Str) :
    update_or_insert_header 2025 (junk n ++ deepHdr) "Deep.java" fl fo =
      some (junk n ++
        ("/*\n * SPDX-FileCopyrightText: 2020-2025 Acme\n * SPDX-License-Identifier: MIT\n */").data,
        "spdx_updated") ∧
    processOutcome 2025 (junk n ++ deepHdr) "Deep.java" fl fo =
      some "spdx_updated" := by
  have hd : dialects (get_file_type "Deep.java") = javaD := by decide
  have hs : spdxSearch (dialects (get_file_type "Deep.java"))
      (junk n ++ deepHdr) = some (2 * n, deepG) := by
    rw [hd]; exact deep_search n
  have hy : get_updated_years 2025 deepG.years =
      some (("2020-2025").data) := by decide
  have hexp : expandRepl (spdxEnv (dialects (get_file_type "Deep.java")) deepG)
      (headerForm (dialects (get_file_type "Deep.java")) (("2020-2025").data)
        deepG.owner deepG.license) =
      some (headerForm (dialects (get_file_type "Deep.java"))
        (("2020-2025").data) deepG.owner deepG.license) := by
    rw [hd]; decide
  have hsub := spdxSub_eq hs hexp
  have htake : (junk n ++ deepHdr).take (2 * n) = junk n := by
    rw [← junk_len n]
    exact List.take_left (junk n) deepHdr
  have hform : headerForm (dialects (get_file_type "Deep.java"))
      (("2020-2025").data) deepG.owner deepG.license =
      ("/*\n * SPDX-FileCopyrightText: 2020-2025 Acme\n * SPDX-License-Identifier: MIT\n */").data := by
    rw [hd]; decide
  rw [htake, hform] at hsub
  have hupd := update_on_spdx fl fo hs hy hsub
  have hrest : (junk n ++
      ("/*\n * SPDX-FileCopyrightText: 2020-2025 Acme\n * SPDX-License-Identifier: MIT\n */").data ++
      deepG.rest) =
      junk n ++
      ("/*\n * SPDX-FileCopyrightText: 2020-2025 Acme\n * SPDX-License-Identifier: MIT\n */").data := by
    show _ ++ _ ++ ([] : Str) = _
    rw [List.append_nil]
  rw [hrest] at hupd
  refine ⟨hupd, ?_⟩
  rw [processOutcome_of_update hupd, if_neg ?_]
  intro hx
  have := List.append_cancel_left hx
  exact absurd this.symm (by decide)

/-- Counterexample to C6 as stated: a canonical header 30 lines deep in
the body (offset 60) IS recognized and rewritten — the file is not
treated as having no header (the outcome is `spdx_updated`, not
`header_inserted`, and the deep block is refreshed in place). -/
theorem C6_counterexample :
    update_or_insert_header 2025
        (("x\nx\nx\nx\nx\nx\nx\nx\nx\nx\nx\nx\nx\nx\nx\nx\nx\nx\nx\nx\nx\nx\nx\nx\nx\nx\nx\nx\nx\nx\n/*\n * SPDX-FileCopyrightText: 2020-2021 Acme\n * SPDX-License-Identifier: MIT\n */").data)
        "A.java" (("Apache-2.0").data) (("L").data) =
      some ((("x\nx\nx\nx\nx\nx\nx\nx\nx\nx\nx\nx\nx\nx\nx\nx\nx\nx\nx\nx\nx\nx\nx\nx\nx\nx\nx\nx\nx\nx\n/*\n * SPDX-FileCopyrightText: 2020-2025 Acme\n * SPDX-License-Identifier: MIT\n */").data),
        "spdx_updated") ∧
    (spdxSearch javaD
      (("x\nx\nx\nx\nx\nx\nx\nx\nx\nx\nx\nx\nx\nx\nx\nx\nx\nx\nx\nx\nx\nx\nx\nx\nx\nx\nx\nx\nx\nx\n/*\n * SPDX-FileCopyrightText: 2020-2021 Acme\n * SPDX-License-Identifier: MIT\n */").data)).map
      Prod.fst = some 60 := by
  refine ⟨by decide, by decide⟩

end CC
